import Mathlib

/-!
Verification of the news-ingestion pipeline of `static/scrape_news_to_csv.py`
(Ukraine Judo site scraper).  Python functions are shallowly embedded as Lean
definitions over `String`/`List Char`; the mutable module state
(`ALL_ARTICLES_MAP`, the download directory, the network) is passed
explicitly; a Python `raise` that escapes a function is an `Except.error`.
Character classes of the `re` patterns (`\w`, `\s`, `str.lower`) are embedded
over the alphabet the scraper works with: ASCII plus the Cyrillic block
U+0400–U+04FF.
-/

namespace Scrape

/-- Configuration constant `BASE` of the scraper. -/
def BASE : String := "https://ukrainejudo.com"

/-- Embeds Python `str.lower` character-wise on ASCII letters and the
Cyrillic letters the scraper handles (А–Я, Ё, Є, І, Ї, Ґ). -/
def pyLowerChar (c : Char) : Char :=
  if 65 ≤ c.toNat ∧ c.toNat ≤ 90 then Char.ofNat (c.toNat + 32)
  else if 0x410 ≤ c.toNat ∧ c.toNat ≤ 0x42F then Char.ofNat (c.toNat + 32)
  else if c.toNat = 0x401 then 'ё'
  else if c.toNat = 0x404 then 'є'
  else if c.toNat = 0x406 then 'і'
  else if c.toNat = 0x407 then 'ї'
  else if c.toNat = 0x490 then 'ґ'
  else c

/-- Embeds Python `str.lower` on whole strings. -/
def pyLower (s : String) : String := String.mk (s.data.map pyLowerChar)

/-- The whitespace set of Python `str.strip` and of the regex class `\s`
(space, tab, newline, carriage return, vertical tab, form feed). -/
def isPySpace (c : Char) : Bool :=
  c = ' ' || c = '\t' || c = '\n' || c = '\r' || c.toNat = 11 || c.toNat = 12

/-- Embeds Python `str.strip()` (no arguments): drop whitespace at both ends. -/
def pyStrip (s : String) : String :=
  String.mk (((s.data.dropWhile isPySpace).reverse.dropWhile isPySpace).reverse)

/-- The regex class `\w` over the scraper's alphabet: ASCII alphanumerics,
underscore, and the Cyrillic block U+0400–U+04FF. -/
def isWordChar (c : Char) : Bool :=
  c.isAlphanum || c = '_' || (0x400 ≤ c.toNat && c.toNat ≤ 0x4FF)

/-- Does the second list start with the first?  Embeds the prefix test
behind Python substring containment. -/
def hasPre : List Char → List Char → Bool
  | [], _ => true
  | _ :: _, [] => false
  | a :: n, b :: h => a == b && hasPre n h

/-- Does `hay` contain `needle` as a contiguous run?  Embeds Python
`needle in hay` for strings. -/
def hasSub (needle : List Char) : List Char → Bool
  | [] => hasPre needle []
  | b :: t => hasPre needle (b :: t) || hasSub needle t

/-- Python `needle in hay` on `String`s. -/
def containsStr (hay needle : String) : Bool := hasSub needle.data hay.data

/-- Python `s.startswith(pre)`. -/
def startsWithStr (s pre : String) : Bool := hasPre pre.data s.data

/-! ## normalise_date -/

/-- The `MONTH_MAP` dictionary: lower-case Russian and Ukrainian genitive
month names mapped to zero-padded month numbers. -/
def MONTH_MAP : List (String × String) :=
  [("января", "01"), ("февраля", "02"), ("марта", "03"), ("апреля", "04"),
   ("мая", "05"), ("июня", "06"), ("июля", "07"), ("августа", "08"),
   ("сентября", "09"), ("октября", "10"), ("ноября", "11"), ("декабря", "12"),
   ("січня", "01"), ("лютого", "02"), ("березня", "03"), ("квітня", "04"),
   ("травня", "05"), ("червня", "06"), ("липня", "07"), ("серпня", "08"),
   ("вересня", "09"), ("жовтня", "10"), ("листопада", "11"), ("грудня", "12")]

/-- The `(\d{4})` group at the head of a list, if the first four characters
are digits. -/
def fourAt : List Char → Option String
  | a :: b :: c :: d :: _ =>
    if a.isDigit && b.isDigit && c.isDigit && d.isDigit then
      some (String.mk [a, b, c, d])
    else none
  | _ => none

/-- Embeds the tail `.*?(\d{4})` of the date regex: the lazy `.*?` consumes
the fewest possible characters (none of which may be a newline, as `.`
excludes it) before a four-digit group. -/
def findFourDigits : List Char → Option String
  | [] => none
  | c :: rest =>
    match fourAt (c :: rest) with
    | some y => some y
    | none => if c = '\n' then none else findFourDigits rest

/-- Backtracking of the greedy month group `([\w…]+)`: with `w` the maximal
word-character run, try the longest capture first (`j+1` characters), giving
characters back to `.*?(\d{4})` on failure.  Yields (month name, year). -/
def tryMonthAux (w rest : List Char) : Nat → Option (String × String)
  | 0 => none
  | j + 1 =>
    match findFourDigits (w.drop (j + 1) ++ rest) with
    | some y => some (String.mk (w.take (j + 1)), y)
    | none => tryMonthAux w rest j

/-- The month-and-year part of the date regex after the day group. -/
def tryMonth (w rest : List Char) : Option (String × String) :=
  tryMonthAux w rest w.length

/-- After the day group: `\s+` (at least one whitespace, maximal — no later
atom can match whitespace, so the greedy run never backtracks), then the
month word run and `.*?(\d{4})`. -/
def afterDay (day l : List Char) : Option (List Char × String × String) :=
  if l.takeWhile isPySpace = [] then none
  else if (l.dropWhile isPySpace).takeWhile isWordChar = [] then none
  else
    match tryMonth ((l.dropWhile isPySpace).takeWhile isWordChar)
        ((l.dropWhile isPySpace).dropWhile isWordChar) with
    | some (m, y) => some (day, m, y)
    | none => none

/-- A match of `(\d{1,2})\s+([\w…]+).*?(\d{4})` anchored at the head of the
list: the greedy day group tries two digits before one. -/
def matchAt : List Char → Option (List Char × String × String)
  | [] => none
  | [c] => if c.isDigit then afterDay [c] [] else none
  | c1 :: c2 :: rest =>
    if c1.isDigit then
      if c2.isDigit then
        match afterDay [c1, c2] rest with
        | some r => some r
        | none => afterDay [c1] (c2 :: rest)
      else afterDay [c1] (c2 :: rest)
    else none

/-- `re.search` for the date pattern: try each start position left to
right. -/
def reSearchDate : List Char → Option (List Char × String × String)
  | [] => none
  | c :: t =>
    match matchAt (c :: t) with
    | some r => some r
    | none => reSearchDate t

/-- Numeric value of a digit character. -/
def digitVal (c : Char) : Nat := c.toNat - 48

/-- Python `int` on a string of decimal digits. -/
def toNatDigits (l : List Char) : Nat := l.foldl (fun a c => a * 10 + digitVal c) 0

/-- Python `f"{n:02d}"` for the day: zero-pad to two digits. -/
def pad2 (n : Nat) : String := if n < 10 then "0" ++ Nat.repr n else Nat.repr n

/-- Embeds `normalise_date`: convert strings like "14 февраля, 2025" into
"2025-02-14"; if the regex or the month lookup fails, return the stripped
input unchanged. -/
def normalise_date (raw : String) : String :=
  match reSearchDate raw.data with
  | none => pyStrip raw
  | some (day, monthName, year) =>
    match List.lookup (pyLower monthName) MONTH_MAP with
    | none => pyStrip raw
    | some month => year ++ "-" ++ month ++ "-" ++ pad2 (toNatDigits day)

/-- Shape predicate: exactly four decimal digits. -/
def fourDigitsStr (s : String) : Bool :=
  match s.data with
  | [a, b, c, d] => a.isDigit && b.isDigit && c.isDigit && d.isDigit
  | _ => false

/-- Shape predicate: exactly two decimal digits. -/
def twoDigitsStr (s : String) : Bool :=
  match s.data with
  | [a, b] => a.isDigit && b.isDigit
  | _ => false

/-- Shape predicate: a fully formed `YYYY-MM-DD` string with zero-padded
fields. -/
def isIsoShape (s : String) : Bool :=
  match s.data with
  | [a, b, c, d, '-', e, f, '-', g, h] =>
    a.isDigit && b.isDigit && c.isDigit && d.isDigit &&
    e.isDigit && f.isDigit && g.isDigit && h.isDigit
  | _ => false

/-! ## ARTICLE_RE and extract_article_links -/

/-- The class `[\w\d-]` of `ARTICLE_RE`. -/
def isWordHy (c : Char) : Bool := isWordChar c || c = '-'

/-- A match of `ARTICLE_RE = /news/(\d+)-[\w\d-]+` (IGNORECASE) anchored at
the head of the list; returns the digit group.  The greedy `\d+` run never
backtracks: giving a digit back would put a digit where `-` is required. -/
def matchArticleAt : List Char → Option String
  | '/' :: c1 :: c2 :: c3 :: c4 :: '/' :: rest =>
    if pyLowerChar c1 = 'n' ∧ pyLowerChar c2 = 'e' ∧ pyLowerChar c3 = 'w' ∧
        pyLowerChar c4 = 's' then
      let ds := rest.takeWhile Char.isDigit
      if ds = [] then none
      else
        match rest.dropWhile Char.isDigit with
        | '-' :: r => if r.takeWhile isWordHy = [] then none else some (String.mk ds)
        | _ => none
    else none
  | _ => none

/-- `ARTICLE_RE.search`: leftmost match, scanning start positions left to
right; returns `group(1)`, the numeric article id. -/
def searchArticleRe : List Char → Option String
  | [] => none
  | c :: t =>
    match matchArticleAt (c :: t) with
    | some s => some s
    | none => searchArticleRe t

/-- The absolutisation step of `extract_article_links`: hrefs starting with
"/" get the site base prepended. -/
def absolutize (href : String) : String :=
  if startsWithStr href "/" then BASE ++ href else href

/-- The loop of `extract_article_links`: `acc` is both the output list (in
first-occurrence order) and the `seen` set, which always hold the same
elements in the Python loop. -/
def extractGo : List String → List String → List String
  | [], acc => acc
  | h :: t, acc =>
    match searchArticleRe h.data with
    | some _ =>
      let u := absolutize h
      if u ∈ acc then extractGo t acc else extractGo t (acc ++ [u])
    | none => extractGo t acc

/-- Embeds `extract_article_links`: the input is the `href` attribute of
every anchor of the listing document, in document order. -/
def extract_article_links (hrefs : List String) : List String := extractGo hrefs []

/-- Modelled from the spec's words for the deduplication contract: keep the
first occurrence of each URL, preserving page order. -/
def dedupFirstOcc (l : List String) : List String :=
  l.foldl (fun acc x => if x ∈ acc then acc else acc ++ [x]) []

/-! ## slugify -/

/-- The transliteration dictionary of `slugify` (Ukrainian/Russian to
Latin). -/
def TRANSLIT_MAP : List (Char × String) :=
  [('а', "a"), ('б', "b"), ('в', "v"), ('г', "h"), ('ґ', "g"), ('д', "d"),
   ('е', "e"), ('є', "ye"), ('ё', "yo"), ('ж', "zh"), ('з', "z"), ('и', "y"),
   ('і', "i"), ('ї', "yi"), ('й', "y"), ('к', "k"), ('л', "l"), ('м', "m"),
   ('н', "n"), ('о', "o"), ('п', "p"), ('р', "r"), ('с', "s"), ('т', "t"),
   ('у', "u"), ('ф', "f"), ('х', "kh"), ('ц', "ts"), ('ч', "ch"), ('ш', "sh"),
   ('щ', "shch"), ('ь', ""), ('ы', "y"), ('ъ', ""), ('э', "e"), ('ю', "yu"),
   ('я', "ya")]

/-- `mapping.get(ch, ch)` in the transliteration join. -/
def translitChar (c : Char) : List Char :=
  match List.lookup c TRANSLIT_MAP with
  | some s => s.data
  | none => [c]

/-- Models `unicodedata.normalize("NFKD", ·)` character-wise on the
scraper's alphabet: the lower-case Cyrillic letters й, ё, ї decompose into a
base letter plus a combining mark; ASCII and the remaining Cyrillic letters
are their own normal form. -/
def nfkdChar (c : Char) : List Char :=
  if c = 'й' then ['и', Char.ofNat 0x306]
  else if c = 'ё' then ['е', Char.ofNat 0x308]
  else if c = 'ї' then ['і', Char.ofNat 0x308]
  else [c]

/-- The class `[a-z0-9]` of the slug substitution. -/
def okChar (c : Char) : Bool :=
  (97 ≤ c.toNat && c.toNat ≤ 122) || (48 ≤ c.toNat && c.toNat ≤ 57)

/-- `re.sub(r"[^a-z0-9]+", "-", ·)`: each maximal run of characters outside
`[a-z0-9]` becomes a single hyphen.  The flag records whether the scan is
inside such a run. -/
def subNAGo : Bool → List Char → List Char
  | _, [] => []
  | inRun, c :: rest =>
    if okChar c then c :: subNAGo false rest
    else if inRun then subNAGo true rest
    else '-' :: subNAGo true rest

/-- `re.sub(r"[^a-z0-9]+", "-", ·)` from the start of the string. -/
def subNonAlnum (l : List Char) : List Char := subNAGo false l

/-- `re.sub(r"-{2,}", "-", ·)`: collapse hyphen runs to a single hyphen
(a lone hyphen is left as it is, which coincides with collapsing). -/
def subHyGo : Bool → List Char → List Char
  | _, [] => []
  | inRun, c :: rest =>
    if c = '-' then
      if inRun then subHyGo true rest else '-' :: subHyGo true rest
    else c :: subHyGo false rest

/-- `re.sub(r"-{2,}", "-", ·)` from the start of the string. -/
def subHyphens (l : List Char) : List Char := subHyGo false l

/-- The hyphen character, as a Boolean predicate. -/
def isHy (c : Char) : Bool := c = '-'

/-- Python `str.strip("-")`. -/
def stripHy (l : List Char) : List Char :=
  ((l.dropWhile isHy).reverse.dropWhile isHy).reverse

/-- Shape predicate: no two adjacent hyphens. -/
def noDouble : List Char → Bool
  | a :: b :: rest => if a = '-' ∧ b = '-' then false else noDouble (b :: rest)
  | _ => true

/-- Embeds `slugify`: lower-case, Unicode-normalize, transliterate, replace
non-alphanumeric runs with hyphens, collapse hyphens, strip hyphens, fall
back to "untitled" when empty. -/
def slugify (text : String) : String :=
  let lowered := text.data.map pyLowerChar
  let normed := (lowered.map nfkdChar).flatten
  let translit := (normed.map translitChar).flatten
  let s3 := stripHy (subHyphens (subNonAlnum translit))
  if s3 = [] then "untitled" else String.mk s3

/-! ## choose_category -/

/-- One entry of `CATEGORY_RULES`. -/
structure CatRule where
  priority : Nat
  title_keywords : List String
  content_keywords : List String
  weight : Nat
deriving Repr, DecidableEq

/-- The fixed category list written to JSON records. -/
def CATEGORY_LIST : List String :=
  ["achievements", "announcements", "greetings", "results", "decisions",
   "events", "partnerships", "federationNews", "competitions", "interviews",
   "education"]

/-- `CATEGORY_RULES`, in dictionary insertion order. -/
def CATEGORY_RULES : List (String × CatRule) :=
  [("greetings",
    { priority := 1,
      title_keywords := ["вітаєм", "вітає", "поздравля", "поздравил",
        "з днем народження", "з ювілеєм", "день народжен", "ювілей",
        "congratulat"],
      content_keywords := ["вітаєм", "поздравля", "ювілей", "день народжен"],
      weight := 10 }),
   ("achievements",
    { priority := 2,
      title_keywords := ["золото", "срібло", "бронза", "медал", "чемпіон",
        "переможець", "перемога", "нагород", "призер", "winning", "champion",
        "medal"],
      content_keywords := ["золот", "срібн", "бронз", "чемпіон", "перемог",
        "нагород", "медал", "призер", "перше місце", "друге місце",
        "третє місце", "victory", "achievement"],
      weight := 8 }),
   ("results",
    { priority := 3,
      title_keywords := ["підсумки", "результат", "фінал", "турнірна таблиця",
        "таблиця", "results", "final"],
      content_keywords := ["підсумк", "результат", "фінал", "турнірн",
        "таблиц", "перше місце", "друге місце", "третє місце"],
      weight := 7 }),
   ("competitions",
    { priority := 4,
      title_keywords := ["чемпіонат", "grand prix", "grand slam", "кубок",
        "open", "masters", "першість", "змагання", "турнір", "championship"],
      content_keywords := ["чемпіонат", "grand", "slam", "prix", "кубок",
        "open", "masters", "першість", "змагання", "турнір", "борців"],
      weight := 6 }),
   ("announcements",
    { priority := 5,
      title_keywords := ["увага", "анонс", "реєстрація", "запрошуєм",
        "запрошенн", "оголошення", "announcement", "registration"],
      content_keywords := ["увага", "анонс", "реєстрац", "запрош", "оголош",
        "заяв", "прийм", "зареєструва"],
      weight := 7 }),
   ("decisions",
    { priority := 6,
      title_keywords := ["рішення", "постанова", "регламент", "правила",
        "протокол", "положення", "decision", "regulation"],
      content_keywords := ["рішення", "постанов", "регламент", "правил",
        "протокол", "положення", "затвердж"],
      weight := 6 }),
   ("federationNews",
    { priority := 7,
      title_keywords := ["федерація", "фду", "президент", "виконком",
        "комітет", "засідання", "federation", "president"],
      content_keywords := ["федераці", "фду", "президент", "виконком",
        "комітет", "засідання", "збори"],
      weight := 5 }),
   ("interviews",
    { priority := 8,
      title_keywords := ["інтерв\x27ю", "інтервью", "розмова", "бесіда",
        "говорить", "interview", "conversation"],
      content_keywords := ["інтерв", "розмов", "бесід", "говор", "запитання",
        "відповід"],
      weight := 8 }),
   ("partnerships",
    { priority := 9,
      title_keywords := ["партнер", "спонсор", "співпраця", "підтримка",
        "cooperation", "partner", "sponsor"],
      content_keywords := ["партнер", "спонсор", "співпрац", "підтримк",
        "cooperation"],
      weight := 6 }),
   ("education",
    { priority := 10,
      title_keywords := ["семінар", "курс", "навчання", "освіта", "академія",
        "тренер", "coach", "education"],
      content_keywords := ["семінар", "курс", "навчан", "освіт", "академ",
        "тренер", "підготовк"],
      weight := 5 }),
   ("events",
    { priority := 11,
      title_keywords := ["подія", "захід", "зібрання", "event"],
      content_keywords := ["поді", "захід", "зібран", "event"],
      weight := 3 })]

/-- `sum(1 for kw in kws if kw in s)`: how many keywords occur in `s`. -/
def countKw (kws : List String) (s : String) : Nat :=
  (kws.filter (fun kw => containsStr s kw)).length

/-- The raw score of one category: title matches count double via
`weight * 2`, content matches count `weight`.  The Python floats are
modelled as exact rationals. -/
def rawScore (r : CatRule) (tl xl : String) : ℚ :=
  (countKw r.title_keywords tl : ℚ) * (r.weight : ℚ) * 2 +
    (countKw r.content_keywords xl : ℚ) * (r.weight : ℚ)

/-- The `scores` dictionary of `choose_category` as an association list in
insertion order: only categories with a positive raw score enter, with
`priority * 0.1` subtracted. -/
def adjScores (title text : String) : List (String × ℚ) :=
  let tl := pyLower title
  let xl := pyLower text
  CATEGORY_RULES.foldl
    (fun acc cr =>
      let s := rawScore cr.2 tl xl
      if 0 < s then acc ++ [(cr.1, s - (cr.2.priority : ℚ) * (1 / 10))] else acc)
    []

/-- Python `max(items, key=value)`: the first item whose value no later item
strictly exceeds. -/
def bestOf (c : String) (s : ℚ) : List (String × ℚ) → String
  | [] => c
  | (c2, s2) :: rest => if s < s2 then bestOf c2 s2 rest else bestOf c s rest

/-- Embeds `choose_category`: the category with the maximum adjusted score,
or "events" when no category scores above zero. -/
def choose_category (title text : String) : String :=
  match adjScores title text with
  | [] => "events"
  | (c, s) :: rest => bestOf c s rest

/-! ## make_excerpt and extract_tags -/

/-- Not the space character (the separator of `rsplit(" ", 1)`). -/
def notSpace (c : Char) : Bool := ¬ c = ' '

/-- Python `text[:length].rsplit(" ", 1)[0]`: everything before the last
space, or the whole string when it has no space. -/
def rsplitHead (l : List Char) : List Char :=
  if ' ' ∈ l then ((l.reverse.dropWhile notSpace).tail).reverse
  else l

/-- Embeds `make_excerpt`: text short enough is returned unchanged,
otherwise the prefix of `length` characters is cut back to the last space
and an ellipsis is appended. -/
def make_excerpt (text : String) (length : Nat) : String :=
  if text.length ≤ length then text
  else String.mk (rsplitHead (text.data.take length)) ++ "…"

/-- The `STOPWORDS` set. -/
def STOPWORDS : List String :=
  ["та", "і", "й", "в", "у", "з", "зі", "до", "на", "про", "за", "як", "що",
   "це", "але", "the", "and", "for", "with", "from", "this", "that", "а",
   "по", "від", "o", "або", "який", "яка", "яке", "буде", "було", "став",
   "стала", "року", "році"]

/-- The token class `[\w'']` of `extract_tags` (both characters of the
class are the ASCII apostrophe). -/
def isTagWordChar (c : Char) : Bool := isWordChar c || c = '\x27'

/-- `re.findall(r"[\w'']+", ·)`: the maximal token runs, in order.  `cur`
holds the current run reversed. -/
def wordRunsGo (cur : List Char) : List Char → List (List Char)
  | [] => if cur = [] then [] else [cur.reverse]
  | c :: rest =>
    if isTagWordChar c then wordRunsGo (c :: cur) rest
    else if cur = [] then wordRunsGo [] rest
    else cur.reverse :: wordRunsGo [] rest

/-- The tag loop: skip short and stop-word tokens, deduplicate, stop once
`limit` tags are collected. -/
def tagsGo (limit : Nat) : List (List Char) → List String → List String
  | [], tags => tags
  | w :: ws, tags =>
    let wl := String.mk (w.map pyLowerChar)
    if wl.length < 4 || STOPWORDS.contains wl then tagsGo limit ws tags
    else
      let tags2 := if tags.contains wl then tags else tags ++ [wl]
      if limit ≤ tags2.length then tags2 else tagsGo limit ws tags2

/-- Embeds `extract_tags`: up to `limit` deduplicated lower-case keywords
from title and text. -/
def extract_tags (title text : String) (limit : Nat) : List String :=
  tagsGo limit (wordRunsGo [] (title ++ " " ++ text).data) []

/-! ## ensure_download_image

The filesystem is the set of existing destination paths (`FS`); the network
is an oracle from URL to `some` content size (success) or `none` (fetch or
status failure). -/

/-- Existing files under the asset root. -/
abbrev FS := List String

/-- The network oracle: `none` models a `requests` exception or bad
status. -/
abbrev Net := String → Option Nat

/-- `urlparse(url).path` for the URL shapes the scraper builds: strip a
`scheme://netloc` head, cut query and fragment. -/
def urlPath (url : String) : String :=
  let l := url.data
  let afterHost :=
    if hasSub "://".data l then
      ((l.dropWhile (fun c => ¬ c = ':')).drop 3).dropWhile (fun c => ¬ c = '/')
    else l
  String.mk (afterHost.takeWhile (fun c => ¬ c = '?' ∧ ¬ c = '#'))

/-- `os.path.basename`: everything after the last slash. -/
def basename (p : String) : String :=
  String.mk ((p.data.reverse.takeWhile (fun c => ¬ c = '/')).reverse)

/-- The destination path `assets/news/<year>/<month>/<original filename>`. -/
def destPath (src_url year month : String) : String :=
  "assets/news/" ++ year ++ "/" ++ month ++ "/" ++ basename (urlPath src_url)

/-- Embeds `ensure_download_image`: when the destination file is absent,
fetch it (writing it on success, leaving the filesystem unchanged on
failure — the exception is caught and only logged); return the destination
path, the new filesystem, and whether a network fetch happened. -/
def ensure_download_image (fs : FS) (net : Net) (src_url year month : String) :
    String × FS × Bool :=
  let dest := destPath src_url year month
  if dest ∈ fs then (dest, fs, false)
  else
    match net src_url with
    | some _ => (dest, dest :: fs, true)
    | none => (dest, fs, true)

/-! ## fix_internal_links -/

/-- An `<a href=…>` element of an article body: its href attribute and its
visible text. -/
structure Anchor where
  href : String
  text : String
deriving Repr, DecidableEq

/-- The numeric-id → slug map `ALL_ARTICLES_MAP`; a dict write is modelled
by consing, so a lookup sees the newest binding. -/
abbrev IdMap := List (String × String)

/-- The `PROTOCOL_LINKS` dictionary, in insertion order. -/
def PROTOCOL_LINKS : List (String × String) :=
  [("протокол", "https://ukraine-judo.github.io/protocols.html"),
   ("protocol", "https://ukraine-judo.github.io/protocols.html"),
   ("регламент", "https://ukraine-judo.github.io/regulations.html"),
   ("regulation", "https://ukraine-judo.github.io/regulations.html"),
   ("положення", "https://ukraine-judo.github.io/regulations.html")]

/-- The second half of the `fix_internal_links` loop body: the first
protocol/regulation keyword contained in the link's stripped lower-cased
text or lower-cased href rewrites the href; no keyword leaves the anchor
unchanged. -/
def protocolRewrite (a : Anchor) : Anchor :=
  match PROTOCOL_LINKS.find? (fun kv =>
      containsStr (pyLower (pyStrip a.text)) kv.1 || containsStr (pyLower a.href) kv.1) with
  | some kv => { a with href := kv.2 }
  | none => a

/-- One iteration of the `fix_internal_links` loop: an internal news link
whose numeric id is in the map becomes a local slug link (and the loop
`continue`s); every other anchor falls through to the protocol/regulation
keyword check. -/
def fixLink (idMap : IdMap) (a : Anchor) : Anchor :=
  if containsStr a.href "ukrainejudo.com/news/" || startsWithStr a.href "/news/" then
    match searchArticleRe a.href.data with
    | some nid =>
      match List.lookup nid idMap with
      | some slug => { a with href := "/news/" ++ slug }
      | none => protocolRewrite a
    | none => protocolRewrite a
  else protocolRewrite a

/-- Embeds `fix_internal_links` over the anchors of a body. -/
def fix_internal_links (idMap : IdMap) (anchors : List Anchor) : List Anchor :=
  anchors.map (fixLink idMap)

/-! ## clean_and_localise_html and parse_article

A fetched article page is modelled by the results of the BeautifulSoup
lookups `parse_article` performs, and an article body by its child nodes
(text, anchors, images; inline `style` attributes are already absent from
this representation, modelling their unconditional removal) together with
its `get_text(" ", strip=True)` plain text. -/

/-- A child node of the article body. -/
inductive Piece where
  | rawP (s : String)
  | anchorP (a : Anchor)
  | imgP (src : String)
deriving Repr, DecidableEq

/-- The article body container. -/
structure Body where
  pieces : List Piece
  /-- `get_text(" ", strip=True)` of the container. -/
  textContent : String
deriving Repr, DecidableEq

/-- A fetched article page: each field is the result of one soup lookup in
`parse_article`.  `metaPublished` is `some c` when the
`article:published_time` meta tag exists with content attribute `c`
(`c = none` models a tag without the attribute). -/
structure Page where
  h2header : Option String
  h1 : Option String
  titleTag : Option String
  timeTag : Option String
  spanDate : Option String
  metaPublished : Option (Option String)
  body : Option Body
  ogImage : Option String
  twImage : Option String
deriving Repr, DecidableEq

/-- `urljoin(BASE, src)` for the shapes that occur: the base URL has no
path, so a root-relative reference is appended directly and a relative one
after a slash; a protocol-relative reference keeps only the scheme. -/
def urljoinBase (src : String) : String :=
  if src = "" then BASE
  else if startsWithStr src "//" then "https:" ++ src
  else if startsWithStr src "/" then BASE ++ src
  else BASE ++ "/" ++ src

/-- Python `s.strip('"\'')`: drop double and single quotes at both ends. -/
def stripQuotes (s : String) : String :=
  let q : Char → Bool := fun c => c = '"' || c = '\x27'
  String.mk (((s.data.dropWhile q).reverse.dropWhile q).reverse)

/-- Python `s.rstrip('/')`. -/
def rstripSlash (s : String) : String :=
  String.mk ((s.data.reverse.dropWhile (fun c => c = '/')).reverse)

/-- The `src` normalisation applied to every body image:
`src.strip().strip('"\'').rstrip('/')`, then absolutisation. -/
def normImgSrc (src : String) : String :=
  let s := rstripSlash (stripQuotes (pyStrip src))
  if startsWithStr s "http" then s else urljoinBase s

/-- The image pass of `clean_and_localise_html`: download every image and
point its `src` at the local path, threading the filesystem. -/
def localiseImgs (net : Net) (year month : String) :
    List Piece → FS → List Piece × FS
  | [], fs => ([], fs)
  | p :: ps, fs =>
    match p with
    | .imgP src =>
      let r := ensure_download_image fs net (normImgSrc src) year month
      let rest := localiseImgs net year month ps r.2.1
      (.imgP r.1 :: rest.1, rest.2)
    | other =>
      let rest := localiseImgs net year month ps fs
      (other :: rest.1, rest.2)

/-- Serialisation of one body node (`decode_contents`). -/
def renderPiece : Piece → String
  | .rawP s => s
  | .anchorP a => "<a href=\"" ++ a.href ++ "\">" ++ a.text ++ "</a>"
  | .imgP src => "<img src=\"" ++ src ++ "\"/>"

/-- `re.sub(r">\s+<", "><", ·)` as a left-to-right scan: after a `>` the
whitespace run is buffered (reversed) in `sp` and dropped exactly when a
`<` follows it. -/
def wsGo : Bool → List Char → List Char → List Char
  | false, _, [] => []
  | false, _, c :: rest =>
    if c = '>' then '>' :: wsGo true [] rest else c :: wsGo false [] rest
  | true, sp, [] => sp.reverse
  | true, sp, c :: rest =>
    if isPySpace c then wsGo true (c :: sp) rest
    else if c = '<' then '<' :: wsGo false [] rest
    else if c = '>' then sp.reverse ++ '>' :: wsGo true [] rest
    else sp.reverse ++ c :: wsGo false [] rest

/-- `re.sub(r">\s+<", "><", ·)`: collapse whitespace runs between a closing
and an opening angle bracket. -/
def wsBetweenTags (l : List Char) : List Char := wsGo false [] l

/-- `re.sub(r"\n+", "", ·)`: remove newlines. -/
def rmNewlines (l : List Char) : List Char := l.filter (fun c => ¬ c = '\n')

/-- `re.sub(r'src="([^"]+)"', r"src='\1'", ·)` as a scan: after the literal
head the quote-free attribute value is buffered (reversed) in `acc`; a
closing quote around a non-empty value rewrites both quotes to apostrophes,
while an empty value or the end of input restores the text unchanged
(`[^"]+` needs at least one character and a closing quote). -/
def sqGo : Option (List Char) → List Char → List Char
  | none, 's' :: 'r' :: 'c' :: '=' :: '"' :: rest => sqGo (some []) rest
  | none, c :: rest => c :: sqGo none rest
  | none, [] => []
  | some acc, [] => 's' :: 'r' :: 'c' :: '=' :: '"' :: acc.reverse
  | some acc, c :: rest =>
    if c = '"' then
      if acc = [] then 's' :: 'r' :: 'c' :: '=' :: '"' :: '"' :: sqGo none rest
      else 's' :: 'r' :: 'c' :: '=' :: '\x27' :: (acc.reverse ++ '\x27' :: sqGo none rest)
    else sqGo (some (c :: acc)) rest

/-- `re.sub(r'src="([^"]+)"', r"src='\1'", ·)`: rewrite double-quoted src
attributes to single quotes. -/
def srcQuoteSwap (l : List Char) : List Char := sqGo none l

/-- Embeds `clean_and_localise_html`: images are localised, internal and
protocol links rewritten, the body serialised and whitespace/quoting
normalised.  Returns the HTML string and the filesystem after downloads. -/
def clean_and_localise_html (idMap : IdMap) (net : Net) (fs : FS) (b : Body)
    (year month : String) : String × FS :=
  let imgPass := localiseImgs net year month b.pieces fs
  let linked := imgPass.1.map (fun p =>
    match p with
    | .anchorP a => .anchorP (fixLink idMap a)
    | other => other)
  let html := String.join (linked.map renderPiece)
  (String.mk (srcQuoteSwap (rmNewlines (wsBetweenTags html.data))), imgPass.2)

/-- `re.match(r"(\d{4})-(\d{2})-", date)`: the year/month asset partition
hint. -/
def matchYearMonth (s : String) : Option (String × String) :=
  match s.data with
  | y1 :: y2 :: y3 :: y4 :: '-' :: m1 :: m2 :: '-' :: _ =>
    if y1.isDigit && y2.isDigit && y3.isDigit && y4.isDigit && m1.isDigit && m2.isDigit then
      some (String.mk [y1, y2, y3, y4], String.mk [m1, m2])
    else none
  | _ => none

/-- Embeds `find_preview_src`: og:image content, twitter:image content,
else the first body image's normalised src.  An empty content attribute is
falsy and falls through. -/
def find_preview_src (p : Page) : Option String :=
  match p.ogImage with
  | some c => if ¬ c = "" then some (pyStrip c) else
      match p.twImage with
      | some c2 => if ¬ c2 = "" then some (pyStrip c2) else
          (p.body.bind (fun b => b.pieces.findSome? (fun pc =>
            match pc with
            | .imgP src => some (rstripSlash (stripQuotes (pyStrip src)))
            | _ => none)))
      | none =>
          (p.body.bind (fun b => b.pieces.findSome? (fun pc =>
            match pc with
            | .imgP src => some (rstripSlash (stripQuotes (pyStrip src)))
            | _ => none)))
  | none =>
    match p.twImage with
    | some c2 => if ¬ c2 = "" then some (pyStrip c2) else
        (p.body.bind (fun b => b.pieces.findSome? (fun pc =>
          match pc with
          | .imgP src => some (rstripSlash (stripQuotes (pyStrip src)))
          | _ => none)))
    | none =>
        (p.body.bind (fun b => b.pieces.findSome? (fun pc =>
          match pc with
          | .imgP src => some (rstripSlash (stripQuotes (pyStrip src)))
          | _ => none)))

/-- The constant author attribution. -/
def AUTHOR_NAME : String := "Пресс-служба ФДУ"

/-- One output record of the scraper. -/
structure NewsRecord where
  rid : String
  title : String
  date : String
  url : String
  html : String
  category : String
  author_name : String
  excerpt : String
  featured : Bool
  image : String
  tags : List String
deriving Repr, DecidableEq

/-- The title lookup of `parse_article`:
`soup.find("h2", class_=…"header"…) or soup.find("h1")`, falling back to
`soup.title`, whose absence raises `AttributeError`. -/
def titleOf (p : Page) : Except String String :=
  match p.h2header, p.h1 with
  | some t, _ => .ok (pyStrip t)
  | none, some t => .ok (pyStrip t)
  | none, none =>
    match p.titleTag with
    | some t => .ok (pyStrip t)
    | none => .error "AttributeError: soup.title is None"

/-- The date lookup of `parse_article`: `<time>`, then a date/created span,
then the `article:published_time` meta tag, whose `get("content")` can be
`None` and then raises `TypeError` inside `normalise_date`'s `re.search`;
no tag at all degrades to the empty string. -/
def dateRawOf (p : Page) : Except String String :=
  match p.timeTag with
  | some t => .ok (pyStrip t)
  | none =>
    match p.spanDate with
    | some t => .ok (pyStrip t)
    | none =>
      match p.metaPublished with
      | some (some c) => .ok c
      | some none => .error "TypeError: normalise_date(None)"
      | none => .ok ""

/-- The pure remainder of `parse_article` after the title and date lookups
have succeeded. -/
def buildRecord (idMap : IdMap) (fs : FS) (net : Net) (url title date_raw : String)
    (p : Page) : NewsRecord × FS × IdMap :=
  let date := normalise_date date_raw
  let ym := (matchYearMonth date).getD ("2025", "01")
  let bodyOut :=
    match p.body with
    | some b => clean_and_localise_html idMap net fs b ym.1 ym.2
    | none => ("", fs)
  let plain :=
    match p.body with
    | some b => b.textContent
    | none => ""
  let preview :=
    match find_preview_src p with
    | some s =>
      if ¬ s = "" then
        let abs := if startsWithStr s "http" then s else urljoinBase s
        let r := ensure_download_image bodyOut.2 net abs ym.1 ym.2
        (r.1, r.2.1)
      else ("", bodyOut.2)
    | none => ("", bodyOut.2)
  let article_id := slugify title
  let idMap2 :=
    match searchArticleRe url.data with
    | some nid => (nid, article_id) :: idMap
    | none => idMap
  ({ rid := article_id, title := title, date := date, url := url,
     html := bodyOut.1, category := choose_category title plain,
     author_name := AUTHOR_NAME, excerpt := make_excerpt plain 160,
     featured := false, image := preview.1,
     tags := extract_tags title plain 5 }, preview.2, idMap2)

/-- Embeds `parse_article` on a fetched page.  A Python exception escaping
the function is `Except.error`; both raise points (a page with no
h2/h1/title element, and a date meta tag without content flowing `None`
into `re.search`) occur before any filesystem or map mutation, so the
failing cases carry no state change. -/
def parse_article (idMap : IdMap) (fs : FS) (net : Net) (url : String)
    (p : Page) : Except String (NewsRecord × FS × IdMap) :=
  match titleOf p with
  | .error e => .error e
  | .ok title =>
    match dateRawOf p with
    | .error e => .error e
    | .ok date_raw => .ok (buildRecord idMap fs net url title date_raw p)

/-! ## The crawl loop (`scrape`)

The listing side is modelled by the sequence of listing pages the crawler
reaches by following "next" links: each element is `some links` (the
already-extracted article links of that page) or `none` for a listing page
whose fetch fails; the list ending models `find_next_page` returning
`None`.  Articles are fetched through `site`; `none` is a fetch failure,
which in `fetch_soup` is `sys.exit` — a `SystemExit` that the crawl loop's
`except Exception` does not catch. -/

/-- The mutable state of one crawl run. -/
structure CrawlState where
  records : List NewsRecord
  seen : List String
  count : Nat
  fs : FS
  idMap : IdMap
deriving Repr

/-- `article_count > limit` for an optional limit. -/
def exceeds : Option Nat → Nat → Bool
  | some n, c => n < c
  | none, _ => false

/-- `pages_processed < max_pages` (or no limit). -/
def canVisit : Option Nat → Nat → Bool
  | some n, processed => processed < n
  | none, _ => true

/-- Result of the per-page article loop. -/
inductive InnerOut where
  | limitHit (st : CrawlState)
  | pageDone (st : CrawlState)
  | fatal (msg : String)

/-- The inner `for link in links` loop of `scrape`: the visit counter is
incremented before the duplicate check, a duplicate link is skipped, a
fetch failure aborts (uncaught `SystemExit`), and a parse error is caught
and only logged. -/
def runLinks (site : String → Option Page) (net : Net)
    (maxA endA : Option Nat) : List String → CrawlState → InnerOut
  | [], st => .pageDone st
  | link :: rest, st =>
    if exceeds maxA (st.count + 1) || exceeds endA (st.count + 1) then
      .limitHit { st with count := st.count + 1 }
    else if link ∈ st.seen then
      runLinks site net maxA endA rest { st with count := st.count + 1 }
    else
      match site link with
      | none => .fatal "SystemExit: error fetching article"
      | some page =>
        match parse_article st.idMap st.fs net link page with
        | .ok r =>
          runLinks site net maxA endA rest
            { records := st.records ++ [r.1], seen := st.seen ++ [link],
              count := st.count + 1, fs := r.2.1, idMap := r.2.2 }
        | .error _ =>
          runLinks site net maxA endA rest
            { st with seen := st.seen ++ [link], count := st.count + 1 }

/-- The outer `while page_url …` loop of `scrape`; returns the collected
records and `pages_processed`. -/
def runPages (site : String → Option Page) (net : Net)
    (maxP maxA endA : Option Nat) :
    List (Option (List String)) → Nat → CrawlState →
    Except String (List NewsRecord × Nat)
  | [], processed, st => .ok (st.records, processed)
  | pg :: restPages, processed, st =>
    if canVisit maxP processed then
      match pg with
      | none => .error "SystemExit: error fetching listing page"
      | some links =>
        if links = [] then .ok (st.records, processed + 1)
        else
          match runLinks site net maxA endA links st with
          | .fatal m => .error m
          | .limitHit st2 => .ok (st2.records, processed + 1)
          | .pageDone st2 => runPages site net maxP maxA endA restPages (processed + 1) st2
    else .ok (st.records, processed)

/-- Embeds `scrape` (offset bookkeeping, which only feeds logging and the
returned `last_offset`, is omitted): crawl the listing pages, respecting
the page and article limits. -/
def scrape (pages : List (Option (List String))) (site : String → Option Page)
    (net : Net) (fs0 : FS) (maxP maxA endA : Option Nat) :
    Except String (List NewsRecord × Nat) :=
  runPages site net maxP maxA endA pages 0
    { records := [], seen := [], count := 0, fs := fs0, idMap := [] }

/-! ## Concrete pages for crawl runs -/

/-- A minimal fetched page carrying only an h2 title header. -/
def pgTitleOnly (t : String) : Page :=
  { h2header := some t, h1 := none, titleTag := none, timeTag := none,
    spanDate := none, metaPublished := none, body := none, ogImage := none,
    twImage := none }

/-- A fetched page with no h2 header, no h1 and no title element. -/
def pgEmpty : Page :=
  { h2header := none, h1 := none, titleTag := none, timeTag := none,
    spanDate := none, metaPublished := none, body := none, ogImage := none,
    twImage := none }

/-! # Theorems -/

/-- C8: `ensure_download_image` fetches only when the destination path is
absent; an existing destination path means no network fetch and the same
local relative path; after one successful download a repeated run performs
no fetch and returns the same path and filesystem. -/
theorem ensure_download_image_idempotent (fs : FS) (net : Net)
    (src year month : String) :
    (destPath src year month ∈ fs →
      ensure_download_image fs net src year month = (destPath src year month, fs, false)) ∧
    ((ensure_download_image fs net src year month).2.2 = true →
      destPath src year month ∉ fs) ∧
    (¬ net src = none →
      ensure_download_image (ensure_download_image fs net src year month).2.1 net src year month
        = ((ensure_download_image fs net src year month).1,
           (ensure_download_image fs net src year month).2.1, false)) := by
  unfold ensure_download_image
  by_cases hf : destPath src year month ∈ fs
  · simp [hf]
  · rcases hn : net src with _ | v
    · simp [hf, hn]
    · simp [hf, hn]

/-- C8 witness: a concrete run whose destination already exists performs no
fetch and returns the existing path. -/
theorem ensure_download_image_idempotent_witness :
    destPath "https://x/b.jpg" "2025" "02" ∈
      (["assets/news/2025/02/b.jpg"] : FS) ∧
    ensure_download_image ["assets/news/2025/02/b.jpg"] (fun _ => some 0)
        "https://x/b.jpg" "2025" "02"
      = (destPath "https://x/b.jpg" "2025" "02", ["assets/news/2025/02/b.jpg"], false) :=
  ⟨by decide,
   (ensure_download_image_idempotent ["assets/news/2025/02/b.jpg"] (fun _ => some 0)
      "https://x/b.jpg" "2025" "02").1 (by decide)⟩

/-- C7 counterexample: an internal news link whose numeric id is not in the
map is not left unchanged — the protocol/regulation keyword pass rewrites
it, here to the static protocols page. -/
theorem fix_internal_links_keyword_rewrite :
    fix_internal_links [] [{ href := "/news/999-protokol-xyz", text := "протокол" }]
      = [{ href := "https://ukraine-judo.github.io/protocols.html", text := "протокол" }] := by
  decide

/-- C7 (amended): an internal news link is rewritten to the local slug path
exactly when its numeric id is in the map; every other anchor goes through
the protocol/regulation keyword pass, which leaves it unchanged exactly
when no keyword occurs in its text or href — so a forward reference to a
not-yet-parsed article is never rewritten to a slug path. -/
theorem fixLink_spec (idMap : IdMap) (a : Anchor) :
    (∀ nid slug, searchArticleRe a.href.data = some nid →
      List.lookup nid idMap = some slug →
      (containsStr a.href "ukrainejudo.com/news/" || startsWithStr a.href "/news/") = true →
      fixLink idMap a = { a with href := "/news/" ++ slug }) ∧
    (∀ nid, searchArticleRe a.href.data = some nid →
      List.lookup nid idMap = none → fixLink idMap a = protocolRewrite a) ∧
    (searchArticleRe a.href.data = none → fixLink idMap a = protocolRewrite a) ∧
    ((∀ kv ∈ PROTOCOL_LINKS, containsStr (pyLower (pyStrip a.text)) kv.1 = false ∧
        containsStr (pyLower a.href) kv.1 = false) →
      protocolRewrite a = a) := by
  refine ⟨?_, ?_, ?_, ?_⟩
  · intro nid slug hs hl hint
    simp only [fixLink, hint, if_true, hs, hl]
  · intro nid hs hl
    unfold fixLink
    by_cases hint : (containsStr a.href "ukrainejudo.com/news/" || startsWithStr a.href "/news/") = true
    · simp only [hint, if_true, hs, hl]
    · simp only [Bool.not_eq_true] at hint
      simp only [hint, Bool.false_eq_true, if_false]
  · intro hs
    unfold fixLink
    by_cases hint : (containsStr a.href "ukrainejudo.com/news/" || startsWithStr a.href "/news/") = true
    · simp only [hint, if_true, hs]
    · simp only [Bool.not_eq_true] at hint
      simp only [hint, Bool.false_eq_true, if_false]
  · intro hkw
    unfold protocolRewrite
    have : PROTOCOL_LINKS.find? (fun kv =>
        containsStr (pyLower (pyStrip a.text)) kv.1 || containsStr (pyLower a.href) kv.1) = none := by
      rw [List.find?_eq_none]
      intro kv hm
      rcases hkw kv hm with ⟨h1, h2⟩
      simp [h1, h2]
    rw [this]

/-- C10 counterexample: a relative href that matches the article pattern
but does not begin with "/" is returned as it is, not as an absolute
URL. -/
theorem extract_article_links_relative :
    extract_article_links ["x/news/12-ab"] = ["x/news/12-ab"] ∧
    startsWithStr "x/news/12-ab" "http" = false := by
  decide

/-- C10 (amended): `extract_article_links` returns exactly the regex-matching
hrefs, absolutised when they begin with "/" and otherwise unchanged,
deduplicated keeping the first occurrence in page order; the result has no
duplicates. -/
theorem extract_article_links_spec (hrefs : List String) :
    extract_article_links hrefs =
      dedupFirstOcc ((hrefs.filter (fun h => (searchArticleRe h.data).isSome)).map absolutize) ∧
    (extract_article_links hrefs).Nodup := by
  have key : ∀ (l : List String) (acc : List String),
      extractGo l acc =
        ((l.filter (fun h => (searchArticleRe h.data).isSome)).map absolutize).foldl
          (fun acc x => if x ∈ acc then acc else acc ++ [x]) acc := by
    intro l
    induction l with
    | nil => intro acc; rfl
    | cons h t ih =>
      intro acc
      rcases hs : searchArticleRe h.data with _ | nid
      · simp only [extractGo, hs, List.filter_cons, Option.isSome_none,
          Bool.false_eq_true, if_false, ih]
      · simp only [extractGo, hs, List.filter_cons, Option.isSome_some, if_true,
          List.map_cons, List.foldl_cons]
        by_cases hm : absolutize h ∈ acc
        · simp only [hm, if_true, ih]
        · simp only [hm, if_false, ih]
  have nd : ∀ (l : List String) (acc : List String), acc.Nodup → (extractGo l acc).Nodup := by
    intro l
    induction l with
    | nil => intro acc h; exact h
    | cons h t ih =>
      intro acc hacc
      rcases hs : searchArticleRe h.data with _ | nid
      · simp only [extractGo, hs]; exact ih acc hacc
      · simp only [extractGo, hs]
        by_cases hm : absolutize h ∈ acc
        · simp only [hm, if_true]; exact ih acc hacc
        · simp only [hm, if_false]
          refine ih _ ?_
          simp [List.nodup_append, hacc, hm]
  exact ⟨key hrefs [], nd hrefs [] List.nodup_nil⟩

/-! ### make_excerpt (C6) -/

theorem notSpace_eq_false (c : Char) (h : notSpace c = false) : c = ' ' := by
  by_cases hc : c = ' '
  · exact hc
  · simp [notSpace, hc] at h

theorem dropWhile_until_space :
    ∀ r : List Char, ' ' ∈ r →
      ∃ t, r.dropWhile notSpace = ' ' :: t := by
  intro r
  induction r with
  | nil => intro h; cases h
  | cons c r ih =>
    intro h
    by_cases hc : c = ' '
    · subst hc
      refine ⟨r, ?_⟩
      have hn : ¬ notSpace ' ' = true := by simp [notSpace]
      rw [List.dropWhile_cons, if_neg hn]
    · have hm : ' ' ∈ r := by
        rcases List.mem_cons.mp h with h1 | h1
        · exact absurd h1.symm hc
        · exact h1
      rcases ih hm with ⟨t, ht⟩
      refine ⟨t, ?_⟩
      have hn : notSpace c = true := by simp [notSpace, hc]
      rw [List.dropWhile_cons, if_pos hn]
      exact ht

theorem rsplitHead_decomp (l : List Char) (h : ' ' ∈ l) :
    ∃ rest, l = rsplitHead l ++ ' ' :: rest ∧ ' ' ∉ rest := by
  have hrev : ' ' ∈ l.reverse := List.mem_reverse.mpr h
  rcases dropWhile_until_space l.reverse hrev with ⟨t, ht⟩
  have hsplit : l.reverse.takeWhile notSpace ++ l.reverse.dropWhile notSpace = l.reverse :=
    List.takeWhile_append_dropWhile notSpace l.reverse
  have hr : rsplitHead l = t.reverse := by
    rw [rsplitHead, if_pos h, ht, List.tail_cons]
  refine ⟨(l.reverse.takeWhile notSpace).reverse, ?_, ?_⟩
  · rw [hr]
    have hl : l = (l.reverse.takeWhile notSpace ++ ' ' :: t).reverse := by
      rw [ht] at hsplit
      rw [hsplit, List.reverse_reverse]
    conv_lhs => rw [hl]
    simp
  · intro hmem
    have hw := List.mem_takeWhile_imp (List.mem_reverse.mp hmem)
    simp [notSpace] at hw

/-- C6: text no longer than the limit is returned unchanged; longer text is
truncated to a prefix of at most `L` characters — cut back to just before
the last space of the `L`-character prefix when that prefix has one —
with an ellipsis appended. -/
theorem make_excerpt_spec (text : String) (L : Nat) :
    (text.length ≤ L → make_excerpt text L = text) ∧
    (L < text.length →
      ∃ cut : List Char,
        (make_excerpt text L).data = cut ++ ['…'] ∧
        cut.length ≤ L ∧
        (∃ r2, text.data = cut ++ r2) ∧
        (' ' ∈ text.data.take L →
          ∃ rest, text.data.take L = cut ++ ' ' :: rest ∧ ' ' ∉ rest) ∧
        (' ' ∉ text.data.take L → cut = text.data.take L)) := by
  constructor
  · intro h
    rw [make_excerpt, if_pos h]
  · intro h
    have hnot : ¬ text.length ≤ L := by omega
    rw [make_excerpt, if_neg hnot]
    refine ⟨rsplitHead (text.data.take L), ?_, ?_, ?_, ?_, ?_⟩
    · rw [String.data_append]
    · have htk : (text.data.take L).length ≤ L := by
        simp [List.length_take]
      by_cases hsp : ' ' ∈ text.data.take L
      · rcases rsplitHead_decomp _ hsp with ⟨rest, he, _⟩
        have := congrArg List.length he
        simp at this
        omega
      · rw [rsplitHead, if_neg hsp]
        exact htk
    · by_cases hsp : ' ' ∈ text.data.take L
      · rcases rsplitHead_decomp _ hsp with ⟨rest, he, _⟩
        refine ⟨' ' :: rest ++ text.data.drop L, ?_⟩
        have hs : text.data = (rsplitHead (text.data.take L) ++ ' ' :: rest) ++ text.data.drop L := by
          rw [← he, List.take_append_drop]
        exact hs.trans (by simp)
      · rw [rsplitHead, if_neg hsp]
        exact ⟨text.data.drop L, (List.take_append_drop L text.data).symm⟩
    · intro hsp
      exact rsplitHead_decomp _ hsp
    · intro hsp
      rw [rsplitHead, if_neg hsp]

/-! ### choose_category (C4) -/

theorem bestOf_spec :
    ∀ (l : List (String × ℚ)) (c : String) (s : ℚ),
      (bestOf c s l = c ∧ ∀ p ∈ l, p.2 ≤ s) ∨
      (∃ s2, (bestOf c s l, s2) ∈ l ∧ s ≤ s2 ∧ ∀ p ∈ l, p.2 ≤ s2) := by
  intro l
  induction l with
  | nil => intro c s; exact Or.inl ⟨rfl, by simp⟩
  | cons q rest ih =>
    intro c s
    rcases q with ⟨c2, s2⟩
    by_cases hlt : s < s2
    · rw [show bestOf c s ((c2, s2) :: rest) = bestOf c2 s2 rest from by
        rw [bestOf, if_pos hlt]]
      rcases ih c2 s2 with ⟨heq, hmax⟩ | ⟨s3, hmem, hle, hmax⟩
      · refine Or.inr ⟨s2, ?_, le_of_lt hlt, ?_⟩
        · rw [heq]; exact List.mem_cons_self _ _
        · intro p hp
          rcases List.mem_cons.mp hp with h1 | h1
          · rw [h1]
          · exact hmax p h1
      · refine Or.inr ⟨s3, List.mem_cons_of_mem _ hmem, le_trans (le_of_lt hlt) hle, ?_⟩
        intro p hp
        rcases List.mem_cons.mp hp with h1 | h1
        · rw [h1]; exact hle
        · exact hmax p h1
    · rw [show bestOf c s ((c2, s2) :: rest) = bestOf c s rest from by
        rw [bestOf, if_neg hlt]]
      have hs2 : s2 ≤ s := le_of_not_lt hlt
      rcases ih c s with ⟨heq, hmax⟩ | ⟨s3, hmem, hle, hmax⟩
      · refine Or.inl ⟨heq, ?_⟩
        intro p hp
        rcases List.mem_cons.mp hp with h1 | h1
        · rw [h1]; exact hs2
        · exact hmax p h1
      · refine Or.inr ⟨s3, List.mem_cons_of_mem _ hmem, hle, ?_⟩
        intro p hp
        rcases List.mem_cons.mp hp with h1 | h1
        · rw [h1]; exact le_trans hs2 hle
        · exact hmax p h1

theorem adjScores_keys (title text : String) :
    ∀ p ∈ adjScores title text, p.1 ∈ CATEGORY_RULES.map Prod.fst := by
  have general : ∀ (rules : List (String × CatRule)) (acc : List (String × ℚ)) (tl xl : String),
      ∀ p ∈ rules.foldl
        (fun acc cr =>
          let s := rawScore cr.2 tl xl
          if 0 < s then acc ++ [(cr.1, s - (cr.2.priority : ℚ) * (1 / 10))] else acc)
        acc,
      p ∈ acc ∨ p.1 ∈ rules.map Prod.fst := by
    intro rules
    induction rules with
    | nil => intro acc tl xl p hp; exact Or.inl hp
    | cons cr rest ih =>
      intro acc tl xl p hp
      rw [List.foldl_cons] at hp
      rcases ih _ tl xl p hp with h1 | h1
      · by_cases hs : 0 < rawScore cr.2 tl xl
        · rw [if_pos hs] at h1
          rcases List.mem_append.mp h1 with h2 | h2
          · exact Or.inl h2
          · right
            simp only [List.mem_singleton] at h2
            simp [h2]
        · rw [if_neg hs] at h1
          exact Or.inl h1
      · right
        simp [h1]
  intro p hp
  rcases general CATEGORY_RULES [] (pyLower title) (pyLower text) p hp with h | h
  · cases h
  · exact h

/-- C4: the classifier always returns a member of the fixed taxonomy (never
the empty string); the returned category is "events" exactly when no
category scored above zero, and otherwise carries the maximum adjusted
score (score minus priority tie-break) among all positively scoring
categories. -/
theorem choose_category_spec (title text : String) :
    choose_category title text ∈ CATEGORY_LIST ∧
    ¬ choose_category title text = "" ∧
    ((adjScores title text = [] ∧ choose_category title text = "events") ∨
      (∃ s, (choose_category title text, s) ∈ adjScores title text ∧
        ∀ p ∈ adjScores title text, p.2 ≤ s)) := by
  have hmain : (adjScores title text = [] ∧ choose_category title text = "events") ∨
      (∃ s, (choose_category title text, s) ∈ adjScores title text ∧
        ∀ p ∈ adjScores title text, p.2 ≤ s) := by
    have hunfold : choose_category title text =
        (match adjScores title text with
         | [] => "events"
         | (c, s) :: rest => bestOf c s rest) := rfl
    rcases hadj : adjScores title text with _ | ⟨⟨c, s⟩, rest⟩
    · rw [hadj] at hunfold
      exact Or.inl ⟨rfl, hunfold⟩
    · right
      rw [hadj] at hunfold
      have hcc : choose_category title text = bestOf c s rest := hunfold
      rcases bestOf_spec rest c s with ⟨heq, hmax⟩ | ⟨s2, hmem, hle, hmax⟩
      · refine ⟨s, ?_, ?_⟩
        · rw [hcc, heq]; exact List.mem_cons_self _ _
        · intro p hp
          rcases List.mem_cons.mp hp with h1 | h1
          · rw [h1]
          · exact hmax p h1
      · refine ⟨s2, ?_, ?_⟩
        · rw [hcc]; exact List.mem_cons_of_mem _ hmem
        · intro p hp
          rcases List.mem_cons.mp hp with h1 | h1
          · rw [h1]; exact hle
          · exact hmax p h1
  have hmem : choose_category title text ∈ CATEGORY_LIST := by
    rcases hmain with ⟨_, hev⟩ | ⟨s, hmem, _⟩
    · rw [hev]; decide
    · have := adjScores_keys title text _ hmem
      have hsub : ∀ k ∈ CATEGORY_RULES.map Prod.fst, k ∈ CATEGORY_LIST := by decide
      exact hsub _ this
  refine ⟨hmem, ?_, hmain⟩
  have : ∀ k ∈ CATEGORY_LIST, ¬ k = "" := by decide
  exact this _ hmem

/-! ### normalise_date (C5) -/

theorem isDigit_toNat (c : Char) (h : c.isDigit = true) :
    48 ≤ c.toNat ∧ c.toNat ≤ 57 := by
  simp [Char.isDigit] at h
  exact h

theorem fourDigitsStr_elim (s : String) (h : fourDigitsStr s = true) :
    ∃ a b c d, s.data = [a, b, c, d] ∧ a.isDigit = true ∧ b.isDigit = true ∧
      c.isDigit = true ∧ d.isDigit = true := by
  unfold fourDigitsStr at h
  split at h
  case _ a b c d heq => exact ⟨a, b, c, d, heq, by simp_all⟩
  case _ => cases h

theorem twoDigitsStr_elim (s : String) (h : twoDigitsStr s = true) :
    ∃ a b, s.data = [a, b] ∧ a.isDigit = true ∧ b.isDigit = true := by
  unfold twoDigitsStr at h
  split at h
  case _ a b heq => exact ⟨a, b, heq, by simp_all⟩
  case _ => cases h

theorem fourAt_shape : ∀ (l : List Char) (y : String),
    fourAt l = some y → fourDigitsStr y = true := by
  intro l y h
  unfold fourAt at h
  split at h
  case _ a b c d rest =>
    split at h
    case isTrue hd =>
      injection h with h
      subst h
      simpa [fourDigitsStr] using hd
    case isFalse hd => cases h
  case _ => cases h

theorem findFourDigits_shape : ∀ (l : List Char) (y : String),
    findFourDigits l = some y → fourDigitsStr y = true := by
  intro l
  induction l with
  | nil => intro y h; cases h
  | cons c rest ih =>
    intro y h
    unfold findFourDigits at h
    rcases hf : fourAt (c :: rest) with _ | y2
    · rw [hf] at h
      by_cases hn : c = '\n'
      · rw [if_pos hn] at h; cases h
      · rw [if_neg hn] at h; exact ih y h
    · rw [hf] at h
      injection h with h
      subst h
      exact fourAt_shape _ _ hf

theorem tryMonthAux_shape (w rest : List Char) :
    ∀ (k : Nat) (m y : String), tryMonthAux w rest k = some (m, y) →
      fourDigitsStr y = true := by
  intro k
  induction k with
  | zero => intro m y h; cases h
  | succ j ih =>
    intro m y h
    unfold tryMonthAux at h
    rcases hf : findFourDigits (w.drop (j + 1) ++ rest) with _ | y2
    · rw [hf] at h
      exact ih m y h
    · rw [hf] at h
      injection h with h
      rw [Prod.ext_iff] at h
      rcases h with ⟨_, h2⟩
      simp at h2
      subst h2
      exact findFourDigits_shape _ _ hf

theorem afterDay_shape (day l : List Char) (d : List Char) (m y : String)
    (h : afterDay day l = some (d, m, y)) :
    d = day ∧ fourDigitsStr y = true := by
  unfold afterDay at h
  split at h
  case isTrue => cases h
  case isFalse =>
    split at h
    case isTrue => cases h
    case isFalse =>
      split at h
      case _ m2 y2 heq =>
        injection h with h
        rw [Prod.ext_iff] at h
        rcases h with ⟨h1, h2⟩
        rw [Prod.ext_iff] at h2
        rcases h2 with ⟨h2, h3⟩
        simp at h1 h2 h3
        subst h1; subst h2; subst h3
        exact ⟨rfl, tryMonthAux_shape _ _ _ _ _ heq⟩
      case _ => cases h

theorem matchAt_shape : ∀ (l : List Char) (d : List Char) (m y : String),
    matchAt l = some (d, m, y) →
      ((∃ c, d = [c] ∧ c.isDigit = true) ∨
        (∃ c1 c2, d = [c1, c2] ∧ c1.isDigit = true ∧ c2.isDigit = true)) ∧
      fourDigitsStr y = true := by
  intro l d m y h
  match l with
  | [] => cases h
  | [c] =>
    simp only [matchAt] at h
    split at h
    case isTrue hd =>
      rcases afterDay_shape _ _ _ _ _ h with ⟨h1, h2⟩
      exact ⟨Or.inl ⟨c, h1, hd⟩, h2⟩
    case isFalse => cases h
  | c1 :: c2 :: rest =>
    simp only [matchAt] at h
    split at h
    case isTrue hd1 =>
      split at h
      case isTrue hd2 =>
        rcases hf : afterDay [c1, c2] rest with _ | r
        · rw [hf] at h
          rcases afterDay_shape _ _ _ _ _ h with ⟨h1, h2⟩
          exact ⟨Or.inl ⟨c1, h1, hd1⟩, h2⟩
        · rw [hf] at h
          injection h with h
          subst h
          rcases afterDay_shape _ _ _ _ _ hf with ⟨h1, h2⟩
          exact ⟨Or.inr ⟨c1, c2, h1, hd1, hd2⟩, h2⟩
      case isFalse =>
        rcases afterDay_shape _ _ _ _ _ h with ⟨h1, h2⟩
        exact ⟨Or.inl ⟨c1, h1, hd1⟩, h2⟩
    case isFalse => cases h

theorem reSearchDate_shape : ∀ (l : List Char) (d : List Char) (m y : String),
    reSearchDate l = some (d, m, y) →
      ((∃ c, d = [c] ∧ c.isDigit = true) ∨
        (∃ c1 c2, d = [c1, c2] ∧ c1.isDigit = true ∧ c2.isDigit = true)) ∧
      fourDigitsStr y = true := by
  intro l
  induction l with
  | nil => intro d m y h; cases h
  | cons c t ih =>
    intro d m y h
    unfold reSearchDate at h
    rcases hm : matchAt (c :: t) with _ | r
    · rw [hm] at h
      exact ih d m y h
    · rw [hm] at h
      injection h with h
      subst h
      exact matchAt_shape _ _ _ _ hm

theorem lookup_mem_values {β : Type} : ∀ (l : List (String × β)) (k : String) (v : β),
    List.lookup k l = some v → v ∈ l.map Prod.snd := by
  intro l
  induction l with
  | nil => intro k v h; cases h
  | cons p t ih =>
    intro k v h
    rcases p with ⟨a, b⟩
    rw [List.lookup_cons] at h
    cases hka : (k == a)
    · rw [hka] at h
      simp only [] at h
      simp [ih k v h]
    · rw [hka] at h
      simp only [] at h
      injection h with h
      subst h
      simp

theorem toNatDigits_lt (d : List Char)
    (h : (∃ c, d = [c] ∧ c.isDigit = true) ∨
      (∃ c1 c2, d = [c1, c2] ∧ c1.isDigit = true ∧ c2.isDigit = true)) :
    toNatDigits d < 100 := by
  rcases h with ⟨c, hd, hc⟩ | ⟨c1, c2, hd, hc1, hc2⟩
  · subst hd
    have := isDigit_toNat c hc
    simp [toNatDigits, digitVal]
    omega
  · subst hd
    have h1 := isDigit_toNat c1 hc1
    have h2 := isDigit_toNat c2 hc2
    simp [toNatDigits, digitVal]
    omega

theorem pad2_shape : ∀ n < 100, twoDigitsStr (pad2 n) = true := by decide

theorem month_twoDigits : ∀ v ∈ MONTH_MAP.map Prod.snd, twoDigitsStr v = true := by
  decide

theorem isoShape_assemble (y m p : String) (hy : fourDigitsStr y = true)
    (hm : twoDigitsStr m = true) (hp : twoDigitsStr p = true) :
    isIsoShape (y ++ "-" ++ m ++ "-" ++ p) = true := by
  rcases fourDigitsStr_elim y hy with ⟨a, b, c, d, hyd, h1, h2, h3, h4⟩
  rcases twoDigitsStr_elim m hm with ⟨e, f, hmd, h5, h6⟩
  rcases twoDigitsStr_elim p hp with ⟨g, h, hpd, h7, h8⟩
  have hdata : (y ++ "-" ++ m ++ "-" ++ p).data =
      [a, b, c, d, '-', e, f, '-', g, h] := by
    rw [String.data_append, String.data_append, String.data_append,
      String.data_append, hyd, hmd, hpd]
    rfl
  unfold isIsoShape
  rw [hdata]
  simp [h1, h2, h3, h4, h5, h6, h7, h8]

/-- C5: `normalise_date` either returns a fully formed zero-padded
`YYYY-MM-DD` string or the stripped input unchanged; in particular
"14 лютого, 2025" becomes "2025-02-14" and "garbage" is returned
unchanged. -/
theorem normalise_date_spec :
    (∀ raw : String,
      normalise_date raw = pyStrip raw ∨ isIsoShape (normalise_date raw) = true) ∧
    normalise_date "14 лютого, 2025" = "2025-02-14" ∧
    normalise_date "garbage" = "garbage" := by
  refine ⟨?_, by decide, by decide⟩
  intro raw
  have hun : normalise_date raw =
      (match reSearchDate raw.data with
       | none => pyStrip raw
       | some (day, monthName, year) =>
         match List.lookup (pyLower monthName) MONTH_MAP with
         | none => pyStrip raw
         | some month => year ++ "-" ++ month ++ "-" ++ pad2 (toNatDigits day)) := rfl
  rcases hr : reSearchDate raw.data with _ | ⟨day, mn, yr⟩
  · rw [hr] at hun
    exact Or.inl hun
  · rw [hr] at hun
    simp only [] at hun
    rcases hl : List.lookup (pyLower mn) MONTH_MAP with _ | mo
    · rw [hl] at hun
      exact Or.inl hun
    · rw [hl] at hun
      simp only [] at hun
      right
      rw [hun]
      rcases reSearchDate_shape _ _ _ _ hr with ⟨hday, hyr⟩
      have hmo : twoDigitsStr mo = true :=
        month_twoDigits mo (lookup_mem_values _ _ _ hl)
      have hpad : twoDigitsStr (pad2 (toNatDigits day)) = true :=
        pad2_shape _ (toNatDigits_lt day hday)
      exact isoShape_assemble yr mo (pad2 (toNatDigits day)) hyr hmo hpad

/-! ### slugify (C9) -/

theorem mem_subNAGo : ∀ (fl : Bool) (l : List Char) (c : Char),
    c ∈ subNAGo fl l → okChar c = true ∨ c = '-' := by
  intro fl l
  induction l generalizing fl with
  | nil => intro c h; cases h
  | cons a rest ih =>
    intro c h
    unfold subNAGo at h
    by_cases ha : okChar a = true
    · rw [if_pos ha] at h
      rcases List.mem_cons.mp h with h1 | h1
      · subst h1; exact Or.inl ha
      · exact ih false c h1
    · rw [if_neg ha] at h
      cases fl with
      | true => simp only [if_true] at h; exact ih true c h
      | false =>
        simp only [Bool.false_eq_true, if_false] at h
        rcases List.mem_cons.mp h with h1 | h1
        · exact Or.inr h1
        · exact ih true c h1

theorem mem_subHyGo : ∀ (fl : Bool) (l : List Char) (c : Char),
    c ∈ subHyGo fl l → c ∈ l ∨ c = '-' := by
  intro fl l
  induction l generalizing fl with
  | nil => intro c h; cases h
  | cons a rest ih =>
    intro c h
    unfold subHyGo at h
    by_cases ha : a = '-'
    · rw [if_pos ha] at h
      cases fl with
      | true =>
        simp only [if_true] at h
        rcases ih true c h with h1 | h1
        · exact Or.inl (List.mem_cons_of_mem _ h1)
        · exact Or.inr h1
      | false =>
        simp only [Bool.false_eq_true, if_false] at h
        rcases List.mem_cons.mp h with h1 | h1
        · exact Or.inr h1
        · rcases ih true c h1 with h2 | h2
          · exact Or.inl (List.mem_cons_of_mem _ h2)
          · exact Or.inr h2
    · rw [if_neg ha] at h
      rcases List.mem_cons.mp h with h1 | h1
      · subst h1; exact Or.inl (List.mem_cons_self _ _)
      · rcases ih false c h1 with h2 | h2
        · exact Or.inl (List.mem_cons_of_mem _ h2)
        · exact Or.inr h2

theorem mem_stripHy (l : List Char) (c : Char) (h : c ∈ stripHy l) : c ∈ l := by
  unfold stripHy at h
  rw [List.mem_reverse] at h
  have h2 := (List.dropWhile_sublist _).mem h
  rw [List.mem_reverse] at h2
  exact (List.dropWhile_sublist _).mem h2

theorem noDouble_cons_elim (a b : Char) (r : List Char)
    (h : noDouble (a :: b :: r) = true) :
    ¬ (a = '-' ∧ b = '-') ∧ noDouble (b :: r) = true := by
  unfold noDouble at h
  by_cases hc : a = '-' ∧ b = '-'
  · rw [if_pos hc] at h; cases h
  · rw [if_neg hc] at h; exact ⟨hc, h⟩

theorem noDouble_cons_intro (a b : Char) (r : List Char)
    (hc : ¬ (a = '-' ∧ b = '-')) (h : noDouble (b :: r) = true) :
    noDouble (a :: b :: r) = true := by
  unfold noDouble
  rw [if_neg hc]
  exact h

theorem noDouble_tail (c : Char) (l : List Char)
    (h : noDouble (c :: l) = true) : noDouble l = true := by
  cases l with
  | nil => rfl
  | cons b t => exact (noDouble_cons_elim _ _ _ h).2

theorem noDouble_cons_of_ne (c : Char) (l : List Char) (hc : ¬ c = '-')
    (h : noDouble l = true) : noDouble (c :: l) = true := by
  cases l with
  | nil => rfl
  | cons b t =>
    exact noDouble_cons_intro _ _ _ (fun hx => hc hx.1) h

theorem noDouble_cons_hyphen (l : List Char) (hh : ¬ l.head? = some '-')
    (h : noDouble l = true) : noDouble ('-' :: l) = true := by
  cases l with
  | nil => rfl
  | cons b t =>
    refine noDouble_cons_intro _ _ _ (fun hx => ?_) h
    exact hh (by rw [hx.2, List.head?_cons])

theorem subHyGo_head : ∀ l : List Char, ¬ (subHyGo true l).head? = some '-' := by
  intro l
  induction l with
  | nil => intro h; cases h
  | cons c rest ih =>
    unfold subHyGo
    by_cases hc : c = '-'
    · rw [if_pos hc, if_pos rfl]
      exact ih
    · rw [if_neg hc]
      intro h
      rw [List.head?_cons] at h
      injection h with h
      exact hc h

theorem noDouble_subHyGo : ∀ l : List Char,
    noDouble (subHyGo true l) = true ∧ noDouble (subHyGo false l) = true := by
  intro l
  induction l with
  | nil => exact ⟨rfl, rfl⟩
  | cons c rest ih =>
    constructor
    · show noDouble (subHyGo true (c :: rest)) = true
      unfold subHyGo
      by_cases hc : c = '-'
      · rw [if_pos hc, if_pos rfl]
        exact ih.1
      · rw [if_neg hc]
        exact noDouble_cons_of_ne _ _ hc ih.2
    · show noDouble (subHyGo false (c :: rest)) = true
      unfold subHyGo
      by_cases hc : c = '-'
      · have hfalse : ¬ (false = true) := by simp
        rw [if_pos hc, if_neg hfalse]
        exact noDouble_cons_hyphen _ (subHyGo_head rest) ih.1
      · rw [if_neg hc]
        exact noDouble_cons_of_ne _ _ hc ih.2

theorem noDouble_dropWhile (p : Char → Bool) : ∀ l : List Char,
    noDouble l = true → noDouble (l.dropWhile p) = true := by
  intro l
  induction l with
  | nil => intro h; exact h
  | cons c rest ih =>
    intro h
    rw [List.dropWhile_cons]
    by_cases hp : p c = true
    · rw [if_pos hp]
      exact ih (noDouble_tail _ _ h)
    · rw [if_neg hp]
      exact h

theorem noDouble_append_singleton :
    ∀ (m : List Char) (c : Char), noDouble m = true →
      (m.getLast? = some '-' → ¬ c = '-') → noDouble (m ++ [c]) = true
  | [], c, _, _ => rfl
  | [a], c, _, hl => by
    show noDouble (a :: c :: []) = true
    refine noDouble_cons_intro _ _ _ (fun hx => ?_) rfl
    exact hl (by rw [hx.1]; rfl) hx.2
  | a :: b :: r, c, h, hl => by
    have hstep : noDouble ((b :: r) ++ [c]) = true := by
      refine noDouble_append_singleton (b :: r) c (noDouble_tail _ _ h) ?_
      intro hlast
      exact hl (by rw [List.getLast?_cons_cons]; exact hlast)
    show noDouble (a :: b :: (r ++ [c])) = true
    exact noDouble_cons_intro _ _ _ (noDouble_cons_elim _ _ _ h).1 hstep

theorem noDouble_reverse : ∀ l : List Char,
    noDouble l = true → noDouble l.reverse = true := by
  intro l
  induction l with
  | nil => intro h; exact h
  | cons c rest ih =>
    intro h
    rw [List.reverse_cons]
    refine noDouble_append_singleton _ _ (ih (noDouble_tail _ _ h)) ?_
    intro hlast hc
    rw [List.getLast?_reverse] at hlast
    cases rest with
    | nil => cases hlast
    | cons b t =>
      rw [List.head?_cons] at hlast
      injection hlast with hb
      exact (noDouble_cons_elim _ _ _ h).1 ⟨hc, hb⟩

theorem dropWhile_head_not (p : Char → Bool) : ∀ (l : List Char) (c : Char),
    (l.dropWhile p).head? = some c → p c = false := by
  intro l
  induction l with
  | nil => intro c h; cases h
  | cons a t ih =>
    intro c h
    rw [List.dropWhile_cons] at h
    by_cases hp : p a = true
    · rw [if_pos hp] at h
      exact ih c h
    · rw [if_neg hp] at h
      rw [List.head?_cons] at h
      injection h with h
      subst h
      exact Bool.not_eq_true _ |>.mp hp

theorem getLast?_dropWhile (p : Char → Bool) : ∀ l : List Char,
    ¬ l.dropWhile p = [] → (l.dropWhile p).getLast? = l.getLast? := by
  intro l
  induction l with
  | nil => intro h; exact absurd rfl h
  | cons a t ih =>
    intro h
    rw [List.dropWhile_cons]
    by_cases hp : p a = true
    · rw [if_pos hp]
      rw [List.dropWhile_cons, if_pos hp] at h
      rw [ih h]
      cases t with
      | nil => simp [List.dropWhile_nil] at h
      | cons b r => rw [List.getLast?_cons_cons]
    · rw [if_neg hp]

theorem stripHy_getLast (l : List Char) : ¬ (stripHy l).getLast? = some '-' := by
  unfold stripHy
  intro h
  rw [List.getLast?_reverse] at h
  have := dropWhile_head_not isHy _ _ h
  simp [isHy] at this

theorem stripHy_head (l : List Char) : ¬ (stripHy l).head? = some '-' := by
  by_cases hne : stripHy l = []
  · rw [hne]
    intro h; cases h
  · unfold stripHy at hne ⊢
    intro h
    rw [List.head?_reverse] at h
    have hne2 : ¬ ((l.dropWhile isHy).reverse.dropWhile isHy) = [] := by
      intro he
      rw [he] at hne
      exact hne rfl
    rw [getLast?_dropWhile isHy _ hne2, List.getLast?_reverse] at h
    have := dropWhile_head_not isHy _ _ h
    simp [isHy] at this

theorem noDouble_stripHy (l : List Char) (h : noDouble l = true) :
    noDouble (stripHy l) = true := by
  unfold stripHy
  exact noDouble_reverse _ (noDouble_dropWhile _ _ (noDouble_reverse _ (noDouble_dropWhile _ _ h)))

theorem okChar_vals (c : Char) (h : okChar c = true ∨ c = '-') :
    (97 ≤ c.toNat ∧ c.toNat ≤ 122) ∨ (48 ≤ c.toNat ∧ c.toNat ≤ 57) ∨
      c.toNat = 45 := by
  rcases h with h | h
  · simp [okChar] at h
    rcases h with ⟨h1, h2⟩ | ⟨h1, h2⟩
    · exact Or.inl ⟨h1, h2⟩
    · exact Or.inr (Or.inl ⟨h1, h2⟩)
  · right; right; rw [h]; rfl

theorem okChar_le (c : Char) (h : okChar c = true ∨ c = '-') :
    c.toNat ≤ 122 := by
  rcases okChar_vals c h with ⟨h1, h2⟩ | ⟨h1, h2⟩ | h1 <;> omega

theorem pyLowerChar_id (c : Char) (h : okChar c = true ∨ c = '-') :
    pyLowerChar c = c := by
  have hval := okChar_vals c h
  rcases hval with ⟨h1, h2⟩ | ⟨h1, h2⟩ | h1 <;>
  · unfold pyLowerChar
    rw [if_neg (by omega), if_neg (by omega), if_neg (by omega), if_neg (by omega),
      if_neg (by omega), if_neg (by omega), if_neg (by omega)]

theorem ne_char_of_vals (c d : Char) (h : ¬ c.toNat = d.toNat) : ¬ c = d :=
  fun he => h (by rw [he])

theorem nfkdChar_id (c : Char) (h : okChar c = true ∨ c = '-') :
    nfkdChar c = [c] := by
  have hval : c.toNat ≤ 122 := okChar_le c h
  unfold nfkdChar
  rw [if_neg (ne_char_of_vals c 'й' (by
      have hd : ('й').toNat = 1081 := rfl
      omega)),
    if_neg (ne_char_of_vals c 'ё' (by
      have hd : ('ё').toNat = 1105 := rfl
      omega)),
    if_neg (ne_char_of_vals c 'ї' (by
      have hd : ('ї').toNat = 1111 := rfl
      omega))]

theorem lookup_none_low (c : Char) :
    ∀ l : List (Char × String), (∀ p ∈ l, 1072 ≤ p.1.toNat) →
      c.toNat < 1072 → List.lookup c l = none := by
  intro l
  induction l with
  | nil => intro _ _; rfl
  | cons p t ih =>
    intro hk hc
    rcases p with ⟨k, v⟩
    rw [List.lookup_cons]
    have hne : ¬ c = k := by
      refine ne_char_of_vals c k ?_
      have := hk (k, v) (List.mem_cons_self _ _)
      simp at this
      omega
    have hbeq : (c == k) = false := beq_eq_false_iff_ne.mpr hne
    rw [hbeq]
    exact ih (fun q hq => hk q (List.mem_cons_of_mem _ hq)) hc

theorem translit_keys_high : ∀ p ∈ TRANSLIT_MAP, 1072 ≤ p.1.toNat := by decide

theorem translitChar_id (c : Char) (h : okChar c = true ∨ c = '-') :
    translitChar c = [c] := by
  unfold translitChar
  rw [lookup_none_low c TRANSLIT_MAP translit_keys_high (by
    have := okChar_le c h
    omega)]

theorem map_id_of_mem (f : Char → Char) :
    ∀ l : List Char, (∀ c ∈ l, f c = c) → l.map f = l := by
  intro l
  induction l with
  | nil => intro _; rfl
  | cons a t ih =>
    intro h
    rw [List.map_cons, h a (List.mem_cons_self _ _),
      ih (fun c hc => h c (List.mem_cons_of_mem _ hc))]

theorem flatten_map_singleton (f : Char → List Char) :
    ∀ l : List Char, (∀ c ∈ l, f c = [c]) → (l.map f).flatten = l := by
  intro l
  induction l with
  | nil => intro _; rfl
  | cons a t ih =>
    intro h
    rw [List.map_cons, List.flatten_cons, h a (List.mem_cons_self _ _),
      ih (fun c hc => h c (List.mem_cons_of_mem _ hc))]
    rfl

theorem subNAGo_id : ∀ l : List Char, (∀ c ∈ l, okChar c = true ∨ c = '-') →
    noDouble l = true → ¬ l.getLast? = some '-' → subNAGo false l = l
  | [], _, _, _ => rfl
  | [a], hc, _, hl => by
    have ha : okChar a = true := by
      rcases hc a (List.mem_cons_self _ _) with h | h
      · exact h
      · exact absurd (by rw [h]; rfl) hl
    show subNAGo false [a] = [a]
    unfold subNAGo
    rw [if_pos ha]
    rfl
  | a :: b :: r, hc, hnd, hl => by
    rcases noDouble_cons_elim a b r hnd with ⟨hab, htail⟩
    have hl2 : ¬ (b :: r).getLast? = some '-' := by
      rw [List.getLast?_cons_cons] at hl
      exact hl
    by_cases ha : okChar a = true
    · have hrec : subNAGo false (b :: r) = b :: r :=
        subNAGo_id (b :: r) (fun c hm => hc c (List.mem_cons_of_mem _ hm)) htail hl2
      show subNAGo false (a :: b :: r) = a :: b :: r
      unfold subNAGo
      rw [if_pos ha, hrec]
    · have ha2 : a = '-' := by
        rcases hc a (List.mem_cons_self _ _) with h | h
        · exact absurd h ha
        · exact h
      have hb : ¬ b = '-' := fun hbe => hab ⟨ha2, hbe⟩
      have hbo : okChar b = true := by
        rcases hc b (List.mem_cons_of_mem _ (List.mem_cons_self _ _)) with h | h
        · exact h
        · exact absurd h hb
      have hl3 : ¬ r.getLast? = some '-' := by
        cases r with
        | nil => intro hx; cases hx
        | cons x xs =>
          rw [List.getLast?_cons_cons] at hl2
          exact hl2
      have hrec : subNAGo false r = r :=
        subNAGo_id r (fun c hm => hc c (List.mem_cons_of_mem _ (List.mem_cons_of_mem _ hm)))
          (noDouble_tail _ _ htail) hl3
      have hstep : subNAGo true (b :: r) = b :: r := by
        unfold subNAGo
        rw [if_pos hbo, hrec]
      show subNAGo false (a :: b :: r) = a :: b :: r
      unfold subNAGo
      rw [if_neg ha, if_neg (by simp : ¬ (false = true)), hstep, ha2]

theorem subHyGo_id : ∀ l : List Char, noDouble l = true → subHyGo false l = l
  | [], _ => rfl
  | [a], _ => by
    show subHyGo false [a] = [a]
    unfold subHyGo
    by_cases ha : a = '-'
    · rw [if_pos ha, if_neg (by simp : ¬ (false = true)), ha]
      rfl
    · rw [if_neg ha]
      rfl
  | a :: b :: r, hnd => by
    rcases noDouble_cons_elim a b r hnd with ⟨hab, htail⟩
    by_cases ha : a = '-'
    · have hb : ¬ b = '-' := fun hbe => hab ⟨ha, hbe⟩
      have hrec : subHyGo false (b :: r) = b :: r := subHyGo_id (b :: r) htail
      have hstep : subHyGo true (b :: r) = b :: subHyGo false r := by
        rw [show subHyGo true (b :: r) =
          (if b = '-' then subHyGo true r else b :: subHyGo false r) from rfl, if_neg hb]
      have hrec2 : subHyGo false r = r := subHyGo_id r (noDouble_tail _ _ htail)
      show subHyGo false (a :: b :: r) = a :: b :: r
      unfold subHyGo
      rw [if_pos ha, if_neg (by simp : ¬ (false = true)), hstep, hrec2, ha]
    · have hrec : subHyGo false (b :: r) = b :: r := subHyGo_id (b :: r) htail
      show subHyGo false (a :: b :: r) = a :: b :: r
      unfold subHyGo
      rw [if_neg ha, hrec]

theorem dropWhile_isHy_id (l : List Char) (h : ¬ l.head? = some '-') :
    l.dropWhile isHy = l := by
  cases l with
  | nil => rfl
  | cons a t =>
    rw [List.dropWhile_cons, if_neg]
    intro ha
    simp [isHy] at ha
    exact h (by rw [ha, List.head?_cons])

theorem stripHy_id (l : List Char) (hh : ¬ l.head? = some '-')
    (hl : ¬ l.getLast? = some '-') : stripHy l = l := by
  unfold stripHy
  rw [dropWhile_isHy_id l hh,
    dropWhile_isHy_id l.reverse (by rw [List.head?_reverse]; exact hl),
    List.reverse_reverse]

theorem clean_fix (l : List Char)
    (hchars : ∀ c ∈ l, okChar c = true ∨ c = '-')
    (hnd : noDouble l = true)
    (hh : ¬ l.head? = some '-') (hl : ¬ l.getLast? = some '-') :
    stripHy (subHyphens (subNonAlnum
      ((((l.map pyLowerChar).map nfkdChar).flatten.map translitChar).flatten))) = l := by
  rw [map_id_of_mem pyLowerChar l (fun c hc => pyLowerChar_id c (hchars c hc))]
  rw [flatten_map_singleton nfkdChar l (fun c hc => nfkdChar_id c (hchars c hc))]
  rw [flatten_map_singleton translitChar l (fun c hc => translitChar_id c (hchars c hc))]
  have h1 : subNonAlnum l = l := subNAGo_id l hchars hnd hl
  have h2 : subHyphens l = l := subHyGo_id l hnd
  rw [h1, h2]
  exact stripHy_id l hh hl

/-- C9: `slugify` is deterministic (a pure function of its input) and
idempotent — every output, the "untitled" fallback included, is a fixed
point. -/
theorem slugify_idempotent : ∀ x : String, slugify (slugify x) = slugify x := by
  intro x
  have hbody : slugify x =
      (if stripHy (subHyphens (subNonAlnum
          ((((x.data.map pyLowerChar).map nfkdChar).flatten.map translitChar).flatten))) = []
       then "untitled"
       else String.mk (stripHy (subHyphens (subNonAlnum
          ((((x.data.map pyLowerChar).map nfkdChar).flatten.map translitChar).flatten))))) := rfl
  by_cases h3 : stripHy (subHyphens (subNonAlnum
      ((((x.data.map pyLowerChar).map nfkdChar).flatten.map translitChar).flatten))) = []
  · rw [hbody, if_pos h3]
    decide
  · rw [hbody, if_neg h3]
    have hchars : ∀ c ∈ stripHy (subHyphens (subNonAlnum
        ((((x.data.map pyLowerChar).map nfkdChar).flatten.map translitChar).flatten))),
        okChar c = true ∨ c = '-' := by
      intro c hcm
      have h1 := mem_stripHy _ _ hcm
      rcases mem_subHyGo false _ _ h1 with h2 | h2
      · exact mem_subNAGo false _ _ h2
      · exact Or.inr h2
    have hnd : noDouble (stripHy (subHyphens (subNonAlnum
        ((((x.data.map pyLowerChar).map nfkdChar).flatten.map translitChar).flatten)))) = true :=
      noDouble_stripHy _ (noDouble_subHyGo _).2
    have hfix := clean_fix _ hchars hnd (stripHy_head _) (stripHy_getLast _)
    have hbody2 : ∀ l : List Char, slugify (String.mk l) =
        (if stripHy (subHyphens (subNonAlnum
            ((((l.map pyLowerChar).map nfkdChar).flatten.map translitChar).flatten))) = []
         then "untitled"
         else String.mk (stripHy (subHyphens (subNonAlnum
            ((((l.map pyLowerChar).map nfkdChar).flatten.map translitChar).flatten))))) :=
      fun l => rfl
    rw [hbody2, hfix, if_neg h3]

/-! ### parse_article (C3) -/

/-- C3 counterexample: a successfully fetched page with no h2 header, no h1
and no title element makes `parse_article` raise (`soup.title` is `None`),
so no record is emitted for it. -/
theorem parse_article_no_title_raises :
    parse_article [] [] (fun _ => none) "u" pgEmpty
      = Except.error "AttributeError: soup.title is None" := rfl

theorem titleOf_ok (p : Page)
    (h : ¬ (p.h2header = none ∧ p.h1 = none ∧ p.titleTag = none)) :
    ∃ t, titleOf p = Except.ok t := by
  rcases hh2 : p.h2header with _ | t2
  · rcases hh1 : p.h1 with _ | t1
    · rcases ht : p.titleTag with _ | tt
      · exact absurd ⟨hh2, hh1, ht⟩ h
      · refine ⟨pyStrip tt, ?_⟩
        unfold titleOf
        rw [hh2, hh1, ht]
    · refine ⟨pyStrip t1, ?_⟩
      unfold titleOf
      rw [hh2, hh1]
  · refine ⟨pyStrip t2, ?_⟩
    unfold titleOf
    rw [hh2]

theorem dateRawOf_ok (p : Page)
    (h : ¬ (p.timeTag = none ∧ p.spanDate = none ∧ p.metaPublished = some none)) :
    ∃ t, dateRawOf p = Except.ok t := by
  rcases htm : p.timeTag with _ | t1
  · rcases hsp : p.spanDate with _ | t2
    · rcases hmp : p.metaPublished with _ | c
      · refine ⟨"", ?_⟩
        unfold dateRawOf
        rw [htm, hsp, hmp]
      · rcases c with _ | s
        · exact absurd ⟨htm, hsp, hmp⟩ h
        · refine ⟨s, ?_⟩
          unfold dateRawOf
          rw [htm, hsp, hmp]
    · refine ⟨pyStrip t2, ?_⟩
      unfold dateRawOf
      rw [htm, hsp]
  · refine ⟨pyStrip t1, ?_⟩
    unfold dateRawOf
    rw [htm]

/-- C3 (amended): once the page is fetched, `parse_article` raises only in
two cases — no h2/h1/title element at all, or a date meta tag whose missing
content attribute flows `None` into `normalise_date`.  In every other case
a record is emitted, with empty `html` when no body container is found. -/
theorem parse_article_total (idMap : IdMap) (fs : FS) (net : Net) (url : String)
    (p : Page)
    (htitle : ¬ (p.h2header = none ∧ p.h1 = none ∧ p.titleTag = none))
    (hdate : ¬ (p.timeTag = none ∧ p.spanDate = none ∧ p.metaPublished = some none)) :
    ∃ r fs2 m2, parse_article idMap fs net url p = Except.ok (r, fs2, m2) ∧
      (p.body = none → r.html = "") := by
  rcases titleOf_ok p htitle with ⟨t, ht⟩
  rcases dateRawOf_ok p hdate with ⟨dr, hd⟩
  refine ⟨(buildRecord idMap fs net url t dr p).1,
    (buildRecord idMap fs net url t dr p).2.1,
    (buildRecord idMap fs net url t dr p).2.2, ?_, ?_⟩
  · unfold parse_article
    rw [ht, hd]
  · intro hb
    simp only [buildRecord, hb]

/-- C3 witness: a page carrying only an h2 header and no body yields a
record with empty html. -/
theorem parse_article_total_witness :
    ∃ r fs2 m2, parse_article [] [] (fun _ => none) "u" (pgTitleOnly "Новини")
      = Except.ok (r, fs2, m2) ∧ ((pgTitleOnly "Новини").body = none → r.html = "") :=
  parse_article_total [] [] (fun _ => none) "u" (pgTitleOnly "Новини")
    (by simp [pgTitleOnly]) (by simp [pgTitleOnly])

/-! ### The crawl loop (C1, C2) -/

/-- C1 counterexample: a fetch failure on a single article page is a
`sys.exit` inside `fetch_soup`; the crawl loop's `except Exception` does
not catch the resulting `SystemExit`, so one article fetch failure
terminates the whole run. -/
theorem scrape_article_fetch_fatal :
    scrape [some ["a"]] (fun _ => none) (fun _ => none) [] none none none
      = Except.error "SystemExit: error fetching article" := rfl

theorem runLinks_total (site : String → Option Page) (net : Net)
    (maxA endA : Option Nat) (hsite : ∀ u, ¬ site u = none) :
    ∀ (links : List String) (st : CrawlState),
      (∃ st2, runLinks site net maxA endA links st = InnerOut.limitHit st2) ∨
      (∃ st2, runLinks site net maxA endA links st = InnerOut.pageDone st2) := by
  intro links
  induction links with
  | nil => intro st; exact Or.inr ⟨st, rfl⟩
  | cons link rest ih =>
    intro st
    unfold runLinks
    by_cases hex : (exceeds maxA (st.count + 1) || exceeds endA (st.count + 1)) = true
    · rw [if_pos hex]
      exact Or.inl ⟨_, rfl⟩
    · rw [if_neg hex]
      by_cases hseen : link ∈ st.seen
      · rw [if_pos hseen]
        exact ih _
      · rw [if_neg hseen]
        rcases hsl : site link with _ | page
        · exact absurd hsl (hsite link)
        · dsimp only
          rcases hpa : parse_article st.idMap st.fs net link page with e | r
          · exact ih _
          · exact ih _

theorem runPages_total (site : String → Option Page) (net : Net)
    (maxP maxA endA : Option Nat) (hsite : ∀ u, ¬ site u = none) :
    ∀ (ps : List (Option (List String))) (processed : Nat) (st : CrawlState),
      (∀ pg ∈ ps, ¬ pg = none) →
      ∃ out, runPages site net maxP maxA endA ps processed st = Except.ok out := by
  intro ps
  induction ps with
  | nil => intro processed st _; exact ⟨_, rfl⟩
  | cons pg rest ih =>
    intro processed st hp
    rcases pg with _ | links
    · exact absurd rfl (hp none (List.mem_cons_self _ _))
    · simp only [runPages]
      by_cases hcv : canVisit maxP processed = true
      · rw [if_pos hcv]
        by_cases hl : links = []
        · rw [if_pos hl]
          exact ⟨_, rfl⟩
        · rw [if_neg hl]
          rcases runLinks_total site net maxA endA hsite links st with ⟨st2, h2⟩ | ⟨st2, h2⟩
          · rw [h2]
            exact ⟨_, rfl⟩
          · rw [h2]
            exact ih (processed + 1) st2 (fun q hq => hp q (List.mem_cons_of_mem _ hq))
      · rw [if_neg hcv]
        exact ⟨_, rfl⟩

/-- C1 (amended): an extraction failure on a fetched article page is caught
and the crawl continues, so a run in which every listing page and every
article page fetch succeeds always completes normally, whatever parse
errors occur; only a fetch failure (article or listing) or an output-write
failure is fatal to the run. -/
theorem scrape_total (pages : List (Option (List String)))
    (site : String → Option Page) (net : Net) (fs0 : FS)
    (maxP maxA endA : Option Nat)
    (hpages : ∀ pg ∈ pages, ¬ pg = none)
    (hsite : ∀ u, ¬ site u = none) :
    ∃ out, scrape pages site net fs0 maxP maxA endA = Except.ok out :=
  runPages_total site net maxP maxA endA hsite pages 0 _ hpages

/-- C1 witness: a one-page crawl over a site whose only article parses with
a bare title completes normally. -/
theorem scrape_total_witness :
    (∀ pg ∈ [some ["A"]], ¬ pg = (none : Option (List String))) ∧
    ∃ out, scrape [some ["A"]] (fun _ => some (pgTitleOnly "T2")) (fun _ => none)
      [] none none none = Except.ok out :=
  ⟨by decide,
   scrape_total [some ["A"]] (fun _ => some (pgTitleOnly "T2")) (fun _ => none)
     [] none none none (by decide) (fun u h => Option.noConfusion h)⟩

/-- C2 counterexample: with `max_articles = 2` over listings carrying a
duplicate link, the duplicate link-visit counts toward the limit, so the
run stops after only one distinct article was processed even though a
second distinct article (B) was available. -/
theorem scrape_duplicate_limit :
    (scrape [some ["A"], some ["A", "B"]] (fun _ => some (pgTitleOnly "T2"))
        (fun _ => none) [] none (some 2) none).toOption.map
      (fun out => out.1.length) = some 1 := rfl

theorem runLinks_cap (site : String → Option Page) (net : Net)
    (endA : Option Nat) (N : Nat) :
    ∀ (links : List String) (st st2 : CrawlState),
      st.records.length ≤ min st.count N →
      (runLinks site net (some N) endA links st = InnerOut.limitHit st2 ∨
        runLinks site net (some N) endA links st = InnerOut.pageDone st2) →
      st2.records.length ≤ min st2.count N := by
  intro links
  induction links with
  | nil =>
    intro st st2 hinv h
    rcases h with h | h
    · cases h
    · injection h with h
      subst h
      exact hinv
  | cons link rest ih =>
    intro st st2 hinv h
    unfold runLinks at h
    by_cases hex : (exceeds (some N) (st.count + 1) || exceeds endA (st.count + 1)) = true
    · rw [if_pos hex] at h
      rcases h with h | h
      · injection h with h
        subst h
        simp only []
        omega
      · cases h
    · rw [if_neg hex] at h
      have hcap : st.count + 1 ≤ N := by
        have hx : ¬ exceeds (some N) (st.count + 1) = true := fun hx =>
          hex (by rw [hx, Bool.true_or])
        have : ¬ N < st.count + 1 := fun hlt => hx (by
          show decide (N < st.count + 1) = true
          exact decide_eq_true hlt)
        omega
      by_cases hseen : link ∈ st.seen
      · rw [if_pos hseen] at h
        refine ih _ st2 ?_ h
        simp only []
        omega
      · rw [if_neg hseen] at h
        rcases hsl : site link with _ | page
        · rw [hsl] at h
          dsimp only at h
          rcases h with h | h <;> cases h
        · rw [hsl] at h
          dsimp only at h
          rcases hpa : parse_article st.idMap st.fs net link page with e | r
          · rw [hpa] at h
            dsimp only at h
            refine ih _ st2 ?_ h
            simp only []
            omega
          · rw [hpa] at h
            dsimp only at h
            refine ih _ st2 ?_ h
            simp only [List.length_append, List.length_cons, List.length_nil]
            omega

theorem runPages_cap (site : String → Option Page) (net : Net)
    (maxP endA : Option Nat) (N : Nat) :
    ∀ (ps : List (Option (List String))) (processed : Nat) (st : CrawlState)
      (rs : List NewsRecord) (n : Nat),
      st.records.length ≤ min st.count N →
      runPages site net maxP (some N) endA ps processed st = Except.ok (rs, n) →
      rs.length ≤ N := by
  intro ps
  induction ps with
  | nil =>
    intro processed st rs n hinv h
    injection h with h
    rw [Prod.ext_iff] at h
    rcases h with ⟨h1, _⟩
    simp only [] at h1
    subst h1
    omega
  | cons pg rest ih =>
    intro processed st rs n hinv h
    simp only [runPages] at h
    by_cases hcv : canVisit maxP processed = true
    · rw [if_pos hcv] at h
      rcases pg with _ | links
      · cases h
      · simp only [] at h
        by_cases hl : links = []
        · rw [if_pos hl] at h
          injection h with h
          rw [Prod.ext_iff] at h
          rcases h with ⟨h1, _⟩
          simp only [] at h1
          subst h1
          omega
        · rw [if_neg hl] at h
          rcases hr : runLinks site net (some N) endA links st with st2 | st2 | m
          · rw [hr] at h
            dsimp only at h
            injection h with h
            rw [Prod.ext_iff] at h
            rcases h with ⟨h1, _⟩
            dsimp only at h1
            subst h1
            have := runLinks_cap site net endA N links st st2 hinv (Or.inl hr)
            omega
          · rw [hr] at h
            dsimp only at h
            exact ih (processed + 1) st2 rs n
              (runLinks_cap site net endA N links st st2 hinv (Or.inr hr)) h
          · rw [hr] at h
            dsimp only at h
            cases h
    · rw [if_neg hcv] at h
      injection h with h
      rw [Prod.ext_iff] at h
      rcases h with ⟨h1, _⟩
      simp only [] at h1
      subst h1
      omega

/-- C2 (amended): every link-visit counts toward the `max_articles` limit —
the counter is incremented before the duplicate check, so duplicate links
consume budget and the crawl may stop with fewer than N distinct articles
processed; the number of records produced never exceeds N. -/
theorem scrape_article_cap (pages : List (Option (List String)))
    (site : String → Option Page) (net : Net) (fs0 : FS)
    (maxP : Option Nat) (N : Nat) (endA : Option Nat)
    (rs : List NewsRecord) (n : Nat)
    (h : scrape pages site net fs0 maxP (some N) endA = Except.ok (rs, n)) :
    rs.length ≤ N :=
  runPages_cap site net maxP endA N pages 0 _ rs n (by simp) h

/-- C2 witness: a concrete one-page run under `max_articles = 2` completes
with an output whose record count is within the cap. -/
theorem scrape_article_cap_witness :
    ∃ rs n, scrape [some ["A"]] (fun _ => some (pgTitleOnly "T2"))
        (fun _ => none) [] none (some 2) none = Except.ok (rs, n) ∧ rs.length ≤ 2 := by
  rcases runPages_total (fun _ => some (pgTitleOnly "T2")) (fun _ => none) none (some 2) none
      (fun u h => Option.noConfusion h) [some ["A"]] 0
      { records := [], seen := [], count := 0, fs := [], idMap := [] }
      (by decide) with ⟨out, hout⟩
  rcases out with ⟨rs, n⟩
  exact ⟨rs, n, hout,
    scrape_article_cap [some ["A"]] (fun _ => some (pgTitleOnly "T2")) (fun _ => none)
      [] none 2 none rs n hout⟩

end Scrape

